import Mathlib

/-!
Verification development for the `chemicaldiagram` repository.

The Python source stores chemical diagrams as `networkx` graphs whose nodes
carry a `symbol` (element string) and `charge` attribute and whose edges carry
`polymeric` and `bondtype` attributes.  We embed that data model shallowly:
a graph is a list of atoms (nodes) and a list of bonds (edges).

Python string primitives (`split`, `strip`, `replace`, `in`) are modelled by
structural functions over `List Char` so that all definitions evaluate inside
the kernel.  Python `set`s of element symbols (`Metals`, `Metalloids`) are
modelled as lists in the order they are written in `utils.py`; only their
membership is ever used by the claims, except that a set's iteration order
(arbitrary in Python) is fixed here to the literal order.
-/

set_option maxRecDepth 8000

/-! ### Python string primitives, modelled on `List Char` -/

/-- Boolean equality of characters via their code points. -/
def charEq (a b : Char) : Bool := a.toNat == b.toNat

/-- Does the second list start with the first? -/
def startsWithChars : List Char → List Char → Bool
  | [], _ => true
  | _ :: _, [] => false
  | a :: as, b :: bs => charEq a b && startsWithChars as bs

/-- Python `needle in s` (substring containment). -/
def hasSubstr (needle : List Char) : List Char → Bool
  | [] => startsWithChars needle []
  | c :: rest => startsWithChars needle (c :: rest) || hasSubstr needle rest

/-- Fuel-driven core of `replaceChars`; the fuel is the length of the text, and
each step consumes at least one character. -/
def replaceAux (pat repl : List Char) : Nat → List Char → List Char
  | 0, l => l
  | _ + 1, [] => []
  | fuel + 1, c :: rest =>
    if startsWithChars pat (c :: rest) then
      repl ++ replaceAux pat repl fuel (List.drop pat.length (c :: rest))
    else
      c :: replaceAux pat repl fuel rest

/-- Python `s.replace(pat, repl)`: replace all non-overlapping occurrences,
left to right. -/
def replaceChars (pat repl l : List Char) : List Char :=
  if pat.isEmpty then l else replaceAux pat repl l.length l

/-- The six characters Python `str.split()` / `str.strip()` treat as
whitespace: space, tab, newline, carriage return, vertical tab, form feed. -/
def pyIsSpace (c : Char) : Bool :=
  charEq c ' ' || charEq c '\t' || charEq c '\n' || charEq c '\r' ||
    charEq c (Char.ofNat 11) || charEq c (Char.ofNat 12)

/-- Python `s.strip()`. -/
def pyTrim (l : List Char) : List Char :=
  ((l.dropWhile pyIsSpace).reverse.dropWhile pyIsSpace).reverse

/-- Python `s.strip(c)` for a single strip character `c`. -/
def stripChar (c : Char) (l : List Char) : List Char :=
  ((l.dropWhile (charEq c)).reverse.dropWhile (charEq c)).reverse

/-- Helper for `pySplitWs`: accumulate the current word (reversed). -/
def splitWsAux : List Char → List Char → List (List Char)
  | [], acc => if acc.isEmpty then [] else [acc.reverse]
  | c :: rest, acc =>
    if pyIsSpace c then
      if acc.isEmpty then splitWsAux rest [] else acc.reverse :: splitWsAux rest []
    else splitWsAux rest (c :: acc)

/-- Python `s.split()` (split on whitespace runs, dropping empty words). -/
def pySplitWs (l : List Char) : List (List Char) := splitWsAux l []

/-- Helper for `splitChar`. -/
def splitCharAux (sep : Char) : List Char → List Char → List (List Char)
  | [], acc => [acc.reverse]
  | c :: rest, acc =>
    if charEq c sep then acc.reverse :: splitCharAux sep rest []
    else splitCharAux sep rest (c :: acc)

/-- Python `s.split(sep)` for a one-character separator, keeping empty parts.
All separator uses in the source (`"\n"`, `"-"`, `";"`) are one character. -/
def splitChar (sep : Char) (l : List Char) : List (List Char) := splitCharAux sep l []

/-- Numeric value of a decimal digit character. -/
def digitVal (c : Char) : Nat := c.toNat - 48

/-- First maximal run of decimal digits, modelling
`re.findall(r"\d+", s)[0]` (`none` when the regex finds no match). -/
def firstDigitRun : List Char → Option (List Char)
  | [] => none
  | c :: rest =>
    if c.isDigit then some (c :: rest.takeWhile Char.isDigit)
    else firstDigitRun rest

/-- Value of a digit run, modelling Python `int` on a digit string. -/
def digitsToNat (ds : List Char) : Nat := ds.foldl (fun acc c => acc * 10 + digitVal c) 0

/-! ### Data model (`diagram.py`): atoms, bonds, graphs

An `Atom` is a graph node: integer index, `symbol` and `charge` attributes
(the only node attributes the verified operations read).  A `Bond` is an
undirected edge with its `polymeric` and `bondtype` attributes. -/

structure Atom where
  id : Nat
  symbol : String
  charge : Int
deriving DecidableEq, Repr

structure Bond where
  a : Nat
  b : Nat
  polymeric : Bool
  bondtype : Nat
deriving DecidableEq, Repr

/-- A chemical-diagram graph: the `networkx` graph underlying
`ChemicalDiagram`.  Patterns produced by the rule compiler use the same type,
with `charge`/`polymeric`/`bondtype` filled by dummies (the Python pattern
graphs simply lack those attributes, and no verified operation reads them on
patterns). -/
structure CG where
  atoms : List Atom
  bonds : List Bond
deriving DecidableEq, Repr

/-- A `ChemicalDiagram`: a graph plus an optional identifier. -/
structure Diagram where
  graph : CG
  identifier : Option String
deriving DecidableEq, Repr

/-- Node-index list of a graph (the keys of `graph.nodes`). -/
def nodeIds (g : CG) : List Nat := g.atoms.map Atom.id

/-- Symbol values of all nodes, modelling `diagram.symbols.values()`. -/
def symbolsList (g : CG) : List String := g.atoms.map Atom.symbol

/-- Lookup of the `symbol` attribute of node `n`, modelling `self.symbols[n]`
(`none` when the node does not exist). -/
def symbolOf (g : CG) (n : Nat) : Option String :=
  (g.atoms.find? (fun a => a.id == n)).map Atom.symbol

/-- Does bond `e` touch node `n`? -/
def bondTouches (e : Bond) (n : Nat) : Bool := e.a == n || e.b == n

/-- The endpoint of `e` other than `n` (as `networkx` reports incident edges
`(n, other)`). -/
def bondOther (e : Bond) (n : Nat) : Nat := if e.a == n then e.b else e.a

/-- Is there an edge between nodes `x` and `y` (in either stored
orientation)? -/
def hasEdge (g : CG) (x y : Nat) : Bool :=
  g.bonds.any (fun e => (e.a == x && e.b == y) || (e.a == y && e.b == x))

/-- Neighbor list of node `n`, modelling `graph.neighbors(n)`. -/
def nbrsOf (g : CG) (n : Nat) : List Nat :=
  g.bonds.filterMap (fun e =>
    if e.a == n then some e.b else if e.b == n then some e.a else none)

/-- Node-induced subgraph on the index list `ns`, modelling
`graph.subgraph(ns).copy()`. -/
def inducedSub (g : CG) (ns : List Nat) : CG :=
  { atoms := g.atoms.filter (fun a => ns.contains a.id),
    bonds := g.bonds.filter (fun e => ns.contains e.a && ns.contains e.b) }

/-! ### `ChemicalDiagram` operations (`diagram.py`) -/

/-- `ChemicalDiagram.get_nodes_not_all_poly` (diagram.py lines 71-83): nodes
with at least one non-polymeric incident bond, or with no incident bond. -/
def get_nodes_not_all_poly (g : CG) : List Nat :=
  g.atoms.filterMap (fun a =>
    let edge_poly := (g.bonds.filter (fun e => bondTouches e a.id)).map Bond.polymeric
    if !(edge_poly.all (fun x => x)) then some a.id
    else if (g.bonds.filter (fun e => bondTouches e a.id)).length == 0 then some a.id
    else none)

/-- `ChemicalDiagram.local_graph` (diagram.py lines 34-37): the subgraph
induced on `get_nodes_not_all_poly`. -/
def local_graph (g : CG) : CG := inducedSub g (get_nodes_not_all_poly g)

/-- `ChemicalDiagram.__len__` (diagram.py lines 47-48): the number of nodes of
the local graph. -/
def lenCD (g : CG) : Nat := (local_graph g).atoms.length

/-- `ChemicalDiagram.total_charge` (diagram.py lines 119-124): sum of the
`charge` attribute over the local graph's nodes. -/
def total_charge (g : CG) : Int := ((local_graph g).atoms.map Atom.charge).sum

/-! ### Subgraph containment (`diagram.py` line 145-147)

`contains_subgraph` calls `networkx` `GraphMatcher(G, P).subgraph_is_isomorphic()`
with symbol-equality node match.  The documented semantics of that library
call is NODE-INDUCED subgraph isomorphism: an injective map from the pattern's
nodes onto a node subset of `G` under which the pattern's edges and `G`'s
edges between image nodes correspond exactly.  We realize it as an exhaustive
search over assignment lists (the library's VF2 backtracking is an
optimization of the same search). -/

/-- Dummy atom for out-of-range positional access (never reached on the
in-bounds accesses the search performs). -/
def atomAt (g : CG) (i : Nat) : Atom := g.atoms.getD i { id := 0, symbol := "", charge := 0 }

/-- All lists of length `k` over values `< n` (candidate node assignments). -/
def assignments (n : Nat) : Nat → List (List Nat)
  | 0 => [[]]
  | k + 1 => (List.range n).flatMap (fun i => (assignments n k).map (fun xs => i :: xs))

/-- Are all entries of the list distinct? -/
def allDistinct : List Nat → Bool
  | [] => true
  | x :: xs => !(xs.contains x) && allDistinct xs

/-- Does the positional assignment `xs` (pattern position `i` ↦ diagram
position `xs[i]`) realize a node-induced, symbol-preserving embedding of
pattern `p` into diagram `d`? -/
def checkInduced (d p : CG) (xs : List Nat) : Bool :=
  allDistinct xs &&
  ((List.range p.atoms.length).all (fun i =>
    (atomAt p i).symbol == (atomAt d (xs.getD i 0)).symbol)) &&
  ((List.range p.atoms.length).all (fun i =>
    (List.range p.atoms.length).all (fun j =>
      hasEdge p (atomAt p i).id (atomAt p j).id ==
        hasEdge d (atomAt d (xs.getD i 0)).id (atomAt d (xs.getD j 0)).id)))

/-- `ChemicalDiagram.contains_subgraph` (diagram.py lines 145-147). -/
def contains_subgraph (d p : CG) : Bool :=
  (assignments d.atoms.length p.atoms.length).any (checkInduced d p)

/-- Node-induced, symbol-preserving subgraph embedding, stated with a function
on positions: the specification of `GraphMatcher.subgraph_is_isomorphic`. -/
def InducedEmbedding (d p : CG) : Prop :=
  ∃ f : Fin p.atoms.length → Fin d.atoms.length,
    Function.Injective f ∧
    (∀ i, (p.atoms.get i).symbol = (d.atoms.get (f i)).symbol) ∧
    (∀ i j, hasEdge p (p.atoms.get i).id (p.atoms.get j).id =
      hasEdge d (d.atoms.get (f i)).id (d.atoms.get (f j)).id)

/-- Symbol-preserving subgraph MONOMORPHISM (pattern edges must map to
diagram edges, extra diagram edges allowed): the semantics claim C1 asserts
for `contains_subgraph`. -/
def MonoEmbedding (d p : CG) : Prop :=
  ∃ f : Fin p.atoms.length → Fin d.atoms.length,
    Function.Injective f ∧
    (∀ i, (p.atoms.get i).symbol = (d.atoms.get (f i)).symbol) ∧
    (∀ i j, hasEdge p (p.atoms.get i).id (p.atoms.get j).id = true →
      hasEdge d (d.atoms.get (f i)).id (d.atoms.get (f j)).id = true)

/-! ### Connected components (`diagram.py` lines 112-117)

`get_components` delegates to `nx.connected_components(self.graph)`, whose
documented semantics is: the maximal sets of mutually reachable nodes, one
BFS per not-yet-seen node in node order.  We realize reachability by
saturating neighbor expansion (at most `|nodes|` rounds suffice). -/

/-- One round of neighbor expansion of the node set `s`. -/
def expandOnce (g : CG) (s : List Nat) : List Nat :=
  s ++ (nodeIds g).filter (fun m => !(s.contains m) && s.any (fun x => hasEdge g x m))

/-- Iterated neighbor expansion. -/
def reachAux (g : CG) : Nat → List Nat → List Nat
  | 0, s => s
  | k + 1, s => reachAux g k (expandOnce g s)

/-- All nodes reachable from `n` (BFS saturation). -/
def reachFrom (g : CG) (n : Nat) : List Nat := reachAux g g.atoms.length [n]

/-- One edge step between existing nodes. -/
def EdgeRel (g : CG) (x y : Nat) : Prop :=
  x ∈ nodeIds g ∧ y ∈ nodeIds g ∧ hasEdge g x y = true

/-- Reachability: the reflexive-transitive closure of `Rel`. -/
def Reaches (g : CG) : Nat → Nat → Prop := Relation.ReflTransGen (EdgeRel g)

/-- Components accumulator: scan nodes in order, emitting the reach set of
each node not seen yet. -/
def compAux (g : CG) : List Nat → List Nat → List (List Nat)
  | [], _ => []
  | n :: rest, seen =>
    if n ∈ seen then compAux g rest seen
    else reachFrom g n :: compAux g rest (seen ++ reachFrom g n)

/-- Node sets of the connected components, in discovery order. -/
def getComponents (g : CG) : List (List Nat) := compAux g (nodeIds g) []

/-- `ChemicalDiagram.get_components` (diagram.py lines 112-117): one induced
subgraph per connected component. -/
def get_components (g : CG) : List CG := (getComponents g).map (inducedSub g)

/-- `nx.is_connected(graph)` (`False` is never returned for an empty graph in
the source - the library raises there; the claims only apply it to non-empty
graphs). -/
def isConnected (g : CG) : Bool :=
  match nodeIds g with
  | [] => false
  | n :: _ => (nodeIds g).all (fun m => (reachFrom g n).contains m)

/-! ### Converter (`converter.py`) : charge parsing and the oxygen correction -/

/-- Charge parsing of `from_csd_entry_to_diagram` (converter.py lines 55-69):
empty label gives 0; otherwise the magnitude is the first digit run (1 when
there is none), negated when the label contains `"-"`, kept when it contains
`"+"`, and otherwise a `ConverterError` is raised. -/
def parseCharge (label : String) : Except String Int :=
  if label.data.isEmpty then Except.ok 0
  else
    let charge : Nat :=
      match firstDigitRun label.data with
      | some ds => digitsToNat ds
      | none => 1
    if label.data.contains '-' then Except.ok (-(charge : Int))
    else if label.data.contains '+' then Except.ok (charge : Int)
    else Except.error ("charge_label is strange: " ++ label)

/-- Is node `m` a hydrogen or deuterium atom (`symbols[n2] in ("H", "D")`)? -/
def isHD (g : CG) (m : Nat) : Bool :=
  match symbolOf g m with
  | some s => s == "H" || s == "D"
  | none => false

/-- For node `n`: the `polymeric` flags of its bonds to non-H/D neighbors,
and its H/D neighbors (the `edge_poly` and `hnbs` lists of converter.py
lines 119-126). -/
def oxyQualData (g : CG) (n : Nat) : List Bool × List Nat :=
  let inc := g.bonds.filter (fun e => bondTouches e n)
  ((inc.filterMap (fun e =>
      if isHD g (bondOther e n) then none else some e.polymeric)),
   (inc.filterMap (fun e =>
      if isHD g (bondOther e n) then some (bondOther e n) else none)))

/-- The `oxynodes_tochange` map (converter.py lines 113-128): oxygens all of
whose (at least one) non-H/D bonds are polymeric, with their H/D neighbors. -/
def oxyChange (g : CG) : List (Nat × List Nat) :=
  g.atoms.filterMap (fun at0 =>
    if at0.symbol == "O" then
      let q := oxyQualData g at0.id
      if q.1.all (fun x => x) && !q.1.isEmpty then some (at0.id, q.2) else none
    else none)

/-- Is bond `e` one of the bonds the second loop of the correction rewrites:
a bond between some entry of `oxynodes_tochange` and one of its recorded H/D
neighbors? -/
def oxyCondB (g : CG) (e : Bond) : Bool :=
  (oxyChange g).any (fun q =>
    (e.a == q.1 && q.2.contains e.b) || (e.b == q.1 && q.2.contains e.a))

/-- The oxygen/hydrogen polymeric-bond correction applied at the end of
`from_csd_entry_to_diagram` (converter.py lines 109-132): every bond between
a qualifying oxygen and one of its H/D neighbors has its `polymeric` flag set
to true; all other bonds are untouched. -/
def oxygen_correction (g : CG) : CG :=
  { g with
    bonds := g.bonds.map (fun e =>
      if oxyCondB g e then { e with polymeric := true } else e) }

/-- The semantic qualifying condition of the oxygen correction, for an atom
`a` of `g`: `a` is an oxygen, has at least one bond to a non-H/D neighbor,
and all such bonds are polymeric. -/
def OxyQualA (g : CG) (a : Atom) : Prop :=
  a.symbol = "O" ∧
  (∃ e ∈ g.bonds, bondTouches e a.id = true ∧ isHD g (bondOther e a.id) = false) ∧
  (∀ e ∈ g.bonds, bondTouches e a.id = true → isHD g (bondOther e a.id) = false →
    e.polymeric = true)

instance (g : CG) (a : Atom) : Decidable (OxyQualA g a) := by
  unfold OxyQualA; infer_instance

/-- Does bond `e` connect some qualifying oxygen of `g` to one of that
oxygen's H/D neighbors (the bonds the oxygen correction may touch)? -/
def OxyHPair (g : CG) (e : Bond) : Prop :=
  ∃ a ∈ g.atoms, OxyQualA g a ∧ bondTouches e a.id = true ∧
    isHD g (bondOther e a.id) = true

instance (g : CG) (e : Bond) : Decidable (OxyHPair g e) := by
  unfold OxyHPair; infer_instance

/-! ### Element tables (`utils.py` lines 18-31) -/

/-- The `Metals` set of utils.py, as a list in source order. -/
def Metals : List String := ["Li", "Be", "Na", "Mg", "Al", "K", "Ca", "Sc", "Ti", "V", "Cr", "Mn", "Fe", "Co", "Ni", "Cu", "Zn", "Ga", "Rb", "Sr", "Y", "Zr", "Nb", "Mo", "Tc", "Ru", "Rh", "Pd", "Ag", "Cd", "In", "Sn", "Cs", "Ba", "La", "Ce", "Pr", "Nd", "Pm", "Sm", "Eu", "Gd", "Tb", "Dy", "Ho", "Er", "Tm", "Yb", "Lu", "Hf", "Ta", "W", "Re", "Os", "Ir", "Pt", "Au", "Hg", "Tl", "Pb", "Bi", "Po", "Fr", "Ra", "Ac", "Th", "Pa", "U", "Np", "Pu", "Am", "Cm", "Bk", "Cf", "Es", "Fm", "Md", "No", "Lr", "Rf", "Db", "Sg", "Bh", "Hs", "Mt", "Ds", "Rg", "Cn", "Nh", "Fl", "Mc", "Lv"]

/-- The `Metalloids` set of utils.py. -/
def Metalloids : List String := ["Si", "Te", "Sb", "Ge"]

/-- `MetalAndMetalloids = set.union(Metals, Metalloids)`. -/
def MetalAndMetalloids : List String := Metals ++ Metalloids

/-! ### Rule compiler (`filter.py` lines 47-110) -/

/-- `ChemicalDiagramFilter.gen_line_graph` (filter.py lines 47-54): a path
graph, node `i` labelled `atoms[i]`, edges `i - (i+1)`. -/
def gen_line_graph (syms : List String) : CG :=
  { atoms := syms.enum.map (fun q => { id := q.1, symbol := q.2, charge := 0 }),
    bonds := (List.range (syms.length - 1)).map
      (fun i => { a := i, b := i + 1, polymeric := false, bondtype := 1 }) }

/-- `ChemicalDiagramFilter.gen_star_graph` (filter.py lines 56-65): node 0 is
the center, nodes `1..n` the neighbors, edges `0 - i`. -/
def gen_star_graph (center : String) (nbs : List String) : CG :=
  let syms := center :: nbs
  { atoms := syms.enum.map (fun q => { id := q.1, symbol := q.2, charge := 0 }),
    bonds := (List.range nbs.length).map
      (fun i => { a := 0, b := i + 1, polymeric := false, bondtype := 1 }) }

/-- A compiled pattern: the graph plus the `instruction` tag the source
stores in `subg.graph["instruction"]`. -/
structure RulePat where
  graph : CG
  instruction : String
deriving DecidableEq, Repr

/-- Whether a rule line is an inclusion or an exclusion rule. -/
inductive RuleTag
  | tagInclusion
  | tagExclusion
deriving DecidableEq, Repr

/-- The inclusion/exclusion classification of a rule line (filter.py lines
104-109); lacking both tags raises `ValueError`. -/
def tagOf (rule : List Char) : Except String RuleTag :=
  if hasSubstr "inclusion".data rule then Except.ok RuleTag.tagInclusion
  else if hasSubstr "exclusion".data rule then Except.ok RuleTag.tagExclusion
  else Except.error ("rule in/ex not understood: " ++ String.mk rule)

/-- Compilation of a single rule line (filter.py lines 92-109): strip, detect
`"line graph"` / `"neighbor graph"`, extract the last hyphenated /
starred / semicoloned token, build the pattern, then classify.  Python
exceptions (`IndexError` on a missing token, `ValueError` on an unknown rule)
are modelled as `Except.error`. -/
def compileLine (rule0 : List Char) : Except String (RulePat × RuleTag) :=
  let rule := stripChar ',' (pyTrim rule0)
  if hasSubstr "line graph".data rule then
    match ((pySplitWs rule).filter (fun w => w.any (charEq '-'))).getLast? with
    | none => Except.error "IndexError: list index out of range"
    | some w => do
      let subg := gen_line_graph ((splitChar '-' w).map String.mk)
      let tag ← tagOf rule
      Except.ok ({ graph := subg, instruction := String.mk rule }, tag)
  else if hasSubstr "neighbor graph".data rule then
    match ((pySplitWs rule).filter (fun w => w.any (charEq '*'))).getLast? with
    | none => Except.error "IndexError: list index out of range"
    | some wc =>
      match ((pySplitWs rule).filter (fun w => w.any (charEq ';'))).getLast? with
      | none => Except.error "IndexError: list index out of range"
      | some wn => do
        let subg := gen_star_graph (String.mk (wc.drop 1)) ((splitChar ';' wn).map String.mk)
        let tag ← tagOf rule
        Except.ok ({ graph := subg, instruction := String.mk rule }, tag)
  else Except.error ("rule not understood: " ++ String.mk rule)

/-- The compilation loop (filter.py lines 91-110), building the inclusion and
exclusion lists in line order; the first failing line aborts the whole
compilation, as the Python exception does. -/
def compileAll : List (List Char) → Except String (List RulePat × List RulePat)
  | [] => Except.ok ([], [])
  | r :: rest => do
    let pt ← compileLine r
    let rec0 ← compileAll rest
    match pt.2 with
    | RuleTag.tagInclusion => Except.ok (pt.1 :: rec0.1, rec0.2)
    | RuleTag.tagExclusion => Except.ok (rec0.1, pt.1 :: rec0.2)

/-- `ChemicalDiagramFilter.generate_subgraph_rules` (filter.py lines 67-110):
split into lines; every line containing `"M-"` spawns one expanded line per
metal (or metal-and-metalloid) symbol with `"M-"` replaced by `"{m}-"`; the
expansions are appended after all original lines, and the whole extended list
(original `"M-"` lines included) is then compiled. -/
def generate_subgraph_rules (rules : String) (metal_only : Bool) :
    Except String (List RulePat × List RulePat) :=
  let rlist := splitChar '\n' rules.data
  let ms := if metal_only then Metals else MetalAndMetalloids
  let expand := rlist.flatMap (fun r =>
    if hasSubstr "M-".data r then ms.map (fun m => replaceChars "M-".data (m.data ++ ['-']) r)
    else [])
  compileAll (rlist ++ expand)

/-! ### Filter engine (`filter.py` lines 10-45) -/

/-- `ChemicalDiagramFilter`: inclusion patterns, exclusion patterns, and
predicate functions. -/
structure CDFilter where
  inclusion_subgraphs : List RulePat
  exclusion_subgraphs : List RulePat
  cd_filter_functions : List (CG → Bool)

/-- The predicate loop of `accept` (filter.py lines 22-27): return false at
the first failing predicate. -/
def runFns : List (CG → Bool) → CG → Bool
  | [], _ => true
  | p :: ps, cd => if p cd then runFns ps cd else false

/-- The inclusion loop of `accept` (filter.py lines 28-33): return false at
the first pattern the diagram does not contain. -/
def runInc : List RulePat → CG → Bool
  | [], _ => true
  | s :: ss, cd => if contains_subgraph cd s.graph then runInc ss cd else false

/-- The exclusion loop of `accept` (filter.py lines 34-39): return false at
the first pattern the diagram does contain. -/
def runExc : List RulePat → CG → Bool
  | [], _ => true
  | s :: ss, cd => if contains_subgraph cd s.graph then false else runExc ss cd

/-- `ChemicalDiagramFilter.accept` (filter.py lines 21-40): predicates, then
inclusions, then exclusions, short-circuiting at the first failure. -/
def accept (f : CDFilter) (cd : CG) : Bool :=
  if runFns f.cd_filter_functions cd then
    if runInc f.inclusion_subgraphs cd then runExc f.exclusion_subgraphs cd
    else false
  else false

/-- The halogen symbols of `is_metal_oxide_or_halide`. -/
def halideSyms : List String := ["F", "Cl", "Br", "I"]

/-- `ChemicalDiagramFilter.is_metal_oxide_or_halide` (filter.py lines
173-222), after its connectivity assertion.  For the halide branch the source
builds, for each metal `m` and halogen `x`, the rule string
`"line graph exclusion: any {m}-{x},"`, compiles it with
`generate_subgraph_rules`, and collects the INCLUSION lists `in_subgs` - which
are empty, because the rule says `exclusion`.  The faithful embedding keeps
that behavior. -/
def is_metal_oxide_or_halide (d : CG) (metal_oxide metal_only assume_anion : Bool) :
    Except String Bool :=
  let m_defined := if metal_only then Metals else MetalAndMetalloids
  if !(m_defined.any (fun m => (symbolsList d).contains m)) then Except.ok false
  else if assume_anion && decide (0 ≤ total_charge d) then Except.ok false
  else if metal_oxide then do
    let results ← m_defined.mapM (fun m =>
      generate_subgraph_rules ("neighbor graph inclusion: any *" ++ m ++ " has neighbours O;O;O,") false)
    let mo3 := (results.map (fun pr => pr.1)).flatten
    Except.ok (mo3.any (fun p => contains_subgraph d p.graph))
  else do
    let results ← (m_defined.flatMap (fun m => halideSyms.map (fun x => (m, x)))).mapM
      (fun mx => generate_subgraph_rules ("line graph exclusion: any " ++ mx.1 ++ "-" ++ mx.2 ++ ",") false)
    let mx_subgraphs := (results.map (fun pr => pr.1)).flatten
    Except.ok (mx_subgraphs.any (fun p => contains_subgraph d p.graph))

/-! ### Building units (`diagram.py` lines 226-279) -/

/-- `BuildingUnitDiagram._allowed_centers` (diagram.py lines 227-236),
transcribed in source order, duplicates included. -/
def allowed_centers : List String := ["Si", "B", "C", "N", "P", "S", "Cl", "As", "Se", "Br", "I", "Li", "Be", "Na", "Mg", "Al", "K", "Ca", "Sc", "Ti", "V", "Cr", "Mn", "Fe", "Co", "Ni", "Cu", "Zn", "Ga", "Rb", "Sr", "Y", "Zr", "Nb", "Mo", "Tc", "Ru", "Rh", "Pd", "Ag", "Cd", "In", "Sn", "Cs", "Ba", "La", "Ce", "Pr", "Nd", "Pm", "Sm", "Eu", "Gd", "Tb", "Dy", "Ho", "Er", "Tm", "Yb", "Lu", "Hf", "Ta", "W", "Re", "Os", "Ir", "Pt", "Au", "Hg", "Tl", "Pb", "Bi", "Po", "Fr", "Ra", "Ac", "Th", "Pa", "U", "Np", "Pu", "Am", "Cm", "Bk", "Cf", "Es", "Fm", "Md", "No", "Lr", "Rf", "Db", "Sg", "Bh", "Hs", "Mt", "Ds", "Rg", "Cn", "Nh", "Fl", "Mc", "Lv", "Si", "Te", "Sb", "Ge"]

/-- `BuildingUnitDiagram.local_graph` (diagram.py lines 241-243): for a
building unit no node is excluded - the local graph is the full graph. -/
def building_unit_local_graph (g : CG) : CG := g

/-- Python `len()` of a `BuildingUnitDiagram`: `__len__` measures the local
graph, which for a building unit is the full graph. -/
def buLen (g : CG) : Nat := (building_unit_local_graph g).atoms.length

/-- Stable insertion of a building unit into a list sorted by descending
`buLen` (equal keys keep their relative order, as Python's stable
`sorted(..., reverse=True)` does). -/
def insertBU (x : CG) : List CG → List CG
  | [] => [x]
  | y :: ys => if buLen y < buLen x then x :: y :: ys else y :: insertBU x ys

/-- Stable sort by descending `buLen`, modelling
`sorted(bus, key=lambda x: len(x), reverse=True)`. -/
def sortBUs : List CG → List CG
  | [] => []
  | x :: xs => insertBU x (sortBUs xs)

/-- `BuildingUnitDiagram.get_pbus_from_diagram` (diagram.py lines 245-279):
restrict the local graph to allowed-center symbols, decompose into connected
cores, extend each core by its full-graph neighbors, induce the subgraph,
and sort by descending atom count. -/
def get_pbus_from_diagram (g : CG) (allowed : List String) : List CG :=
  let reduced0 := local_graph g
  let keep := (reduced0.atoms.filter (fun a => allowed.contains a.symbol)).map Atom.id
  let reduced := inducedSub reduced0 keep
  let cores := getComponents reduced
  let bus := cores.map (fun core =>
    let bu := core.flatMap (fun n => n :: nbrsOf g n)
    inducedSub g bu)
  sortBUs bus

/-! ### Serialization and the structural hash (`diagram.py` lines 50-69) -/

/-- A node record of the `networkx` node-link wire format. -/
structure NodeEntry where
  id : Nat
  symbol : String
  charge : Int
deriving DecidableEq, Repr

/-- A link record of the node-link wire format. -/
structure LinkEntry where
  source : Nat
  target : Nat
  polymeric : Bool
  bondtype : Nat
deriving DecidableEq, Repr

/-- The `nx.node_link_data` graph representation. -/
structure NodeLinkData where
  nodes : List NodeEntry
  links : List LinkEntry
deriving DecidableEq, Repr

/-- The dictionary produced by `ChemicalDiagram.as_dict`. -/
structure DiagramDict where
  graph : NodeLinkData
  identifier : Option String
deriving DecidableEq, Repr

/-- `nx.node_link_data`: flatten the graph into node and link records. -/
def node_link_data (g : CG) : NodeLinkData :=
  { nodes := g.atoms.map (fun a => { id := a.id, symbol := a.symbol, charge := a.charge }),
    links := g.bonds.map (fun e =>
      { source := e.a, target := e.b, polymeric := e.polymeric, bondtype := e.bondtype }) }

/-- `nx.node_link_graph`: rebuild the graph from node and link records. -/
def node_link_graph (d : NodeLinkData) : CG :=
  { atoms := d.nodes.map (fun n => { id := n.id, symbol := n.symbol, charge := n.charge }),
    bonds := d.links.map (fun l =>
      { a := l.source, b := l.target, polymeric := l.polymeric, bondtype := l.bondtype }) }

/-- `ChemicalDiagram.as_dict` (diagram.py lines 57-63). -/
def as_dict (D : Diagram) : DiagramDict :=
  { graph := node_link_data D.graph, identifier := D.identifier }

/-- `ChemicalDiagram.from_dict` (diagram.py lines 65-69). -/
def from_dict (d : DiagramDict) : Diagram :=
  { graph := node_link_graph d.graph, identifier := d.identifier }

/-- Lexicographic comparison of character lists (by code point). -/
def listCharLe : List Char → List Char → Bool
  | [], _ => true
  | _ :: _, [] => false
  | a :: as, b :: bs =>
    if a.toNat < b.toNat then true
    else if b.toNat < a.toNat then false
    else listCharLe as bs

/-- Sorted insertion of a string (lexicographic). -/
def insertStr (x : String) : List String → List String
  | [] => [x]
  | y :: ys => if listCharLe x.data y.data then x :: y :: ys else y :: insertStr x ys

/-- Lexicographic insertion sort of strings (the canonical ordering used when
aggregating Weisfeiler-Lehman labels). -/
def sortStrs : List String → List String
  | [] => []
  | x :: xs => insertStr x (sortStrs xs)

/-- Comma-join of a string list. -/
def strJoin (l : List String) : String := l.foldl (fun acc s => acc ++ "," ++ s) ""

/-- Label of node `n` in a label table. -/
def lookupLabel (lab : List (Nat × String)) (n : Nat) : String :=
  ((lab.find? (fun q => q.1 == n)).map Prod.snd).getD ""

/-- One Weisfeiler-Lehman refinement round: append the sorted multiset of
neighbor labels to each node's label. -/
def wlRelabel (g : CG) (lab : List (Nat × String)) : List (Nat × String) :=
  lab.map (fun q =>
    (q.1, q.2 ++ "|" ++ strJoin (sortStrs ((nbrsOf g q.1).map (lookupLabel lab)))))

/-- Iterated Weisfeiler-Lehman refinement. -/
def wlIter : Nat → CG → List (Nat × String) → List (Nat × String)
  | 0, _, lab => lab
  | k + 1, g, lab => wlIter k g (wlRelabel g lab)

/-- `ChemicalDiagram.graph_hash` (diagram.py lines 50-52):
`nx.weisfeiler_lehman_graph_hash(graph, node_attr="symbol", iterations=5)`.
The library runs five refinement rounds starting from the `symbol` labels and
digests the sorted multiset of final labels; the cryptographic digest is
modelled by the canonical label multiset itself (any function of it preserves
the equalities the claims assert). -/
def graph_hash (g : CG) : List String :=
  sortStrs ((wlIter 5 g (g.atoms.map (fun a => (a.id, a.symbol)))).map Prod.snd)

/-- `ChemicalDiagram.__hash__` (diagram.py lines 54-55): the hash of a
diagram is a function of `graph_hash` of its full graph alone. -/
def hashD (D : Diagram) : List String := graph_hash D.graph

/-! ### Concrete graphs used by counterexamples and witnesses -/

/-- A triangle diagram: C, N, H all mutually bonded. -/
def triCNH : CG :=
  { atoms := [{ id := 0, symbol := "C", charge := 0 }, { id := 1, symbol := "N", charge := 0 },
      { id := 2, symbol := "H", charge := 0 }],
    bonds := [{ a := 0, b := 1, polymeric := false, bondtype := 1 },
      { a := 1, b := 2, polymeric := false, bondtype := 1 },
      { a := 0, b := 2, polymeric := false, bondtype := 1 }] }

/-- The 3-node path pattern C-N-H (definitionally
`gen_line_graph ["C", "N", "H"]`). -/
def pathCNH : CG :=
  { atoms := [{ id := 0, symbol := "C", charge := 0 }, { id := 1, symbol := "N", charge := 0 },
      { id := 2, symbol := "H", charge := 0 }],
    bonds := [{ a := 0, b := 1, polymeric := false, bondtype := 1 },
      { a := 1, b := 2, polymeric := false, bondtype := 1 }] }

/-- A connected Na-Cl diagram of total charge -1 with a single ordinary
(non-polymeric) metal-halogen bond. -/
def naclCG : CG :=
  { atoms := [{ id := 0, symbol := "Na", charge := 0 }, { id := 1, symbol := "Cl", charge := -1 }],
    bonds := [{ a := 0, b := 1, polymeric := false, bondtype := 1 }] }

/-- A two-atom diagram whose single bond is polymeric: both atoms are outside
the local graph. -/
def polyNaCl : CG :=
  { atoms := [{ id := 0, symbol := "Na", charge := 0 }, { id := 1, symbol := "Cl", charge := 0 }],
    bonds := [{ a := 0, b := 1, polymeric := true, bondtype := 1 }] }

/-- An oxygen bonded only to a hydrogen by an ordinary solid bond (the
vacuous case of the oxygen correction: no non-hydrogen neighbor at all). -/
def waterOH : CG :=
  { atoms := [{ id := 0, symbol := "O", charge := 0 }, { id := 1, symbol := "H", charge := 0 }],
    bonds := [{ a := 0, b := 1, polymeric := false, bondtype := 1 }] }

/-- An oxygen with two polymeric bonds to metals and one solid bond to a
hydrogen (the example of the specification's oxygen-correction property). -/
def frameworkOH : CG :=
  { atoms := [{ id := 0, symbol := "O", charge := 0 }, { id := 1, symbol := "H", charge := 0 },
      { id := 2, symbol := "Fe", charge := 0 }, { id := 3, symbol := "Fe", charge := 0 }],
    bonds := [{ a := 0, b := 1, polymeric := false, bondtype := 1 },
      { a := 2, b := 0, polymeric := true, bondtype := 1 },
      { a := 3, b := 0, polymeric := true, bondtype := 1 }] }

/-- A one-atom carbon diagram (used as a self-containment witness). -/
def singleC : CG :=
  { atoms := [{ id := 7, symbol := "C", charge := 0 }], bonds := [] }

/-! ## Theorems -/

/-! ### Generic helper lemmas -/

theorem natBeq_iff {x y : Nat} : (x == y) = true ↔ x = y := by
  simp

theorem bondTouches_iff {e : Bond} {n : Nat} :
    bondTouches e n = true ↔ e.a = n ∨ e.b = n := by
  simp [bondTouches]

/-! ### Claim C7: `get_nodes_not_all_poly` membership -/

theorem mem_get_nodes_not_all_poly_aux {g : CG} {a : Atom} {n : Nat} :
    (if !((((g.bonds.filter (fun e => bondTouches e a.id)).map Bond.polymeric).all (fun x => x)) : Bool)
      then some a.id
      else if (g.bonds.filter (fun e => bondTouches e a.id)).length == 0 then some a.id
      else none) = some n ↔
    (a.id = n ∧
      ((∃ e ∈ g.bonds, bondTouches e a.id = true ∧ e.polymeric = false) ∨
        (∀ e ∈ g.bonds, bondTouches e a.id = false))) := by
  by_cases hall :
      (((g.bonds.filter (fun e => bondTouches e a.id)).map Bond.polymeric).all (fun x => x)) = true
  · rw [hall]
    simp only [Bool.not_true, Bool.false_eq_true, if_false]
    by_cases hlen : (g.bonds.filter (fun e => bondTouches e a.id)).length = 0
    · have hnil : g.bonds.filter (fun e => bondTouches e a.id) = [] :=
        List.length_eq_zero.mp hlen
      have hνα : ∀ e ∈ g.bonds, bondTouches e a.id = false := by
        intro e he
        have := List.filter_eq_nil_iff.mp hnil e he
        simpa using this
      simp only [hlen, Nat.zero_eq, beq_self_eq_true, if_true, Option.some.injEq]
      constructor
      · intro h; exact ⟨h, Or.inr hνα⟩
      · intro h; exact h.1
    · have hcond : ((g.bonds.filter (fun e => bondTouches e a.id)).length == 0) = false := by
        simpa using hlen
      rw [hcond]
      simp only [Bool.false_eq_true, if_false]
      constructor
      · intro h; exact absurd h (by simp)
      · rintro ⟨hid, hcase⟩
        rcases hcase with ⟨e, he, ht, hp⟩ | hnone
        · have : e.polymeric = true := by
            have hmem : e.polymeric ∈ (g.bonds.filter (fun e => bondTouches e a.id)).map Bond.polymeric :=
              List.mem_map_of_mem Bond.polymeric (List.mem_filter.mpr ⟨he, ht⟩)
            exact List.all_eq_true.mp hall _ hmem
          rw [this] at hp; exact absurd hp (by simp)
        · have : g.bonds.filter (fun e => bondTouches e a.id) = [] := by
            apply List.filter_eq_nil_iff.mpr
            intro e he; simp [hnone e he]
          exact absurd this (fun hc => hlen (by rw [hc]; rfl))
  · have hall' :
        (((g.bonds.filter (fun e => bondTouches e a.id)).map Bond.polymeric).all (fun x => x)) = false :=
      Bool.eq_false_iff.mpr hall
    rw [hall']
    simp only [Bool.not_false, if_true, Option.some.injEq]
    have hex : ∃ e ∈ g.bonds, bondTouches e a.id = true ∧ e.polymeric = false := by
      rcases List.all_eq_false.mp hall' with ⟨b, hb, hbf⟩
      rcases List.mem_map.mp hb with ⟨e, he, hbe⟩
      rcases List.mem_filter.mp he with ⟨heb, het⟩
      refine ⟨e, heb, het, ?_⟩
      have : b = false := by simpa using hbf
      rw [hbe, this]
    constructor
    · intro h; exact ⟨h, Or.inl hex⟩
    · intro h; exact h.1

/-- Claim C7: `get_nodes_not_all_poly` returns exactly the atoms that either
have at least one incident edge with `polymeric` false, or have zero incident
edges; equivalently it excludes exactly the atoms that have incident edges
all of which are polymeric, and every isolated atom is included. -/
theorem c7_get_nodes_not_all_poly_spec (g : CG) (n : Nat) :
    n ∈ get_nodes_not_all_poly g ↔
      ((∃ a ∈ g.atoms, a.id = n) ∧
        ((∃ e ∈ g.bonds, bondTouches e n = true ∧ e.polymeric = false) ∨
          (∀ e ∈ g.bonds, bondTouches e n = false))) := by
  unfold get_nodes_not_all_poly
  rw [List.mem_filterMap]
  constructor
  · rintro ⟨a, ha, hf⟩
    rcases mem_get_nodes_not_all_poly_aux.mp hf with ⟨hid, hcase⟩
    subst hid
    exact ⟨⟨a, ha, rfl⟩, hcase⟩
  · rintro ⟨⟨a, ha, hid⟩, hcase⟩
    refine ⟨a, ha, mem_get_nodes_not_all_poly_aux.mpr ⟨hid, ?_⟩⟩
    rw [hid]; exact hcase

/-! ### Claim C9: serialization round trip -/

theorem node_link_roundtrip (g : CG) : node_link_graph (node_link_data g) = g := by
  cases g with
  | mk atoms bonds =>
    simp only [node_link_graph, node_link_data, List.map_map, CG.mk.injEq]
    constructor
    · induction atoms with
      | nil => rfl
      | cons a rest ih => simpa using ih
    · induction bonds with
      | nil => rfl
      | cons e rest ih => simpa using ih

theorem from_dict_as_dict (D : Diagram) : from_dict (as_dict D) = D := by
  cases D with
  | mk g i => simp only [from_dict, as_dict, node_link_roundtrip]

/-- Claim C9: for every diagram `D`, `from_dict (as_dict D)` produces a
diagram with the same structural (Weisfeiler-Lehman) hash and the same
identifier. -/
theorem c9_roundtrip (D : Diagram) :
    hashD (from_dict (as_dict D)) = hashD D ∧
      (from_dict (as_dict D)).identifier = D.identifier := by
  rw [from_dict_as_dict]
  exact ⟨rfl, rfl⟩

/-! ### Claim C6: charge-label parsing -/

theorem firstDigitRun_eq_none {l : List Char} (h : l.all (fun c => !c.isDigit) = true) :
    firstDigitRun l = none := by
  induction l with
  | nil => rfl
  | cons c rest ih =>
    rw [List.all_cons] at h
    have hc : c.isDigit = false := by
      have := (Bool.and_eq_true _ _).mp h
      simpa using this.1
    have hrest := ((Bool.and_eq_true _ _).mp h).2
    unfold firstDigitRun
    rw [hc]
    simp only [Bool.false_eq_true, if_false]
    exact ih hrest

/-- Claim C6 (amended): an empty charge label parses to 0; a NON-empty label
containing neither `"-"` nor `"+"` raises the fatal `ConverterError`, whether
or not it contains digits (rather than defaulting to magnitude 1); a
digit-free label containing a sign parses to magnitude 1 with that sign. -/
theorem c6_parse_charge (label : String) :
    (label.data = [] → parseCharge label = Except.ok 0) ∧
    (label.data ≠ [] → label.data.contains '-' = false → label.data.contains '+' = false →
      parseCharge label = Except.error ("charge_label is strange: " ++ label)) ∧
    (label.data ≠ [] → label.data.all (fun c => !c.isDigit) = true →
      label.data.contains '-' = true → parseCharge label = Except.ok (-1)) ∧
    (label.data ≠ [] → label.data.all (fun c => !c.isDigit) = true →
      label.data.contains '-' = false → label.data.contains '+' = true →
      parseCharge label = Except.ok 1) := by
  refine ⟨?_, ?_, ?_, ?_⟩
  · intro h
    unfold parseCharge
    rw [if_pos (by simpa [List.isEmpty_iff] using h)]
  · intro h1 h2 h3
    unfold parseCharge
    rw [if_neg (by simpa [List.isEmpty_iff] using h1)]
    rw [h2, h3]
    simp
  · intro h1 h2 h3
    unfold parseCharge
    rw [if_neg (by simpa [List.isEmpty_iff] using h1)]
    rw [firstDigitRun_eq_none h2, h3]
    simp
  · intro h1 h2 h3 h4
    unfold parseCharge
    rw [if_neg (by simpa [List.isEmpty_iff] using h1)]
    rw [firstDigitRun_eq_none h2, h3, h4]
    simp

/-- Claim C6 counterexample: the non-empty label `"x"` has no parseable
digits and no sign character, and the converter RAISES on it (it does not
yield charge magnitude 1). -/
theorem c6_counterexample :
    parseCharge "x" = Except.error "charge_label is strange: x" := by rfl

/-- Claim C6 witness: the amended behavior at the concrete labels `""`,
`"x"`, `"-"` and `"+"`. -/
theorem c6_witness :
    parseCharge "" = Except.ok 0 ∧
    parseCharge "x" = Except.error ("charge_label is strange: " ++ "x") ∧
    parseCharge "-" = Except.ok (-1) ∧
    parseCharge "+" = Except.ok 1 :=
  ⟨(c6_parse_charge "").1 rfl,
   (c6_parse_charge "x").2.1 (by decide) (by decide) (by decide),
   (c6_parse_charge "-").2.2.1 (by decide) (by decide) (by decide),
   (c6_parse_charge "+").2.2.2 (by decide) (by decide) (by decide) (by decide)⟩

/-! ### Claim C8: `accept` evaluation order and short-circuiting -/

theorem runFns_eq_true_iff (ps : List (CG → Bool)) (cd : CG) :
    runFns ps cd = true ↔ ∀ p ∈ ps, p cd = true := by
  induction ps with
  | nil => simp [runFns]
  | cons p rest ih =>
    unfold runFns
    by_cases hp : p cd = true
    · rw [if_pos hp, ih]
      simp [hp]
    · rw [if_neg hp]
      simp only [List.mem_cons, Bool.false_eq_true, false_iff]
      intro hc
      exact hp (hc p (Or.inl rfl))

theorem runInc_eq_true_iff (ss : List RulePat) (cd : CG) :
    runInc ss cd = true ↔ ∀ s ∈ ss, contains_subgraph cd s.graph = true := by
  induction ss with
  | nil => simp [runInc]
  | cons s rest ih =>
    unfold runInc
    by_cases hs : contains_subgraph cd s.graph = true
    · rw [if_pos hs, ih]
      simp [hs]
    · rw [if_neg hs]
      simp only [List.mem_cons, Bool.false_eq_true, false_iff]
      intro hc
      exact hs (hc s (Or.inl rfl))

theorem runExc_eq_true_iff (ss : List RulePat) (cd : CG) :
    runExc ss cd = true ↔ ∀ s ∈ ss, contains_subgraph cd s.graph = false := by
  induction ss with
  | nil => simp [runExc]
  | cons s rest ih =>
    unfold runExc
    by_cases hs : contains_subgraph cd s.graph = true
    · rw [if_pos hs]
      simp only [List.mem_cons, Bool.false_eq_true, false_iff]
      intro hc
      have := hc s (Or.inl rfl)
      rw [hs] at this
      exact absurd this (by simp)
    · rw [if_neg hs, ih]
      have hs' : contains_subgraph cd s.graph = false := Bool.eq_false_iff.mpr hs
      simp [hs']

/-- Claim C8: `accept` is true exactly when every predicate passes, every
inclusion pattern is contained and no exclusion pattern is contained
(checked in that order), and when the first predicate fails the result is
false regardless of the remaining predicates and of all patterns. -/
theorem c8_accept_spec (f : CDFilter) (cd : CG) :
    (accept f cd = true ↔
      ((∀ p ∈ f.cd_filter_functions, p cd = true) ∧
        (∀ s ∈ f.inclusion_subgraphs, contains_subgraph cd s.graph = true) ∧
        (∀ s ∈ f.exclusion_subgraphs, contains_subgraph cd s.graph = false))) ∧
    (∀ p ps, f.cd_filter_functions = p :: ps → p cd = false → accept f cd = false) := by
  constructor
  · unfold accept
    by_cases h1 : runFns f.cd_filter_functions cd = true
    · rw [if_pos h1]
      by_cases h2 : runInc f.inclusion_subgraphs cd = true
      · rw [if_pos h2]
        rw [runExc_eq_true_iff]
        rw [runFns_eq_true_iff] at h1
        rw [runInc_eq_true_iff] at h2
        exact ⟨fun h => ⟨h1, h2, h⟩, fun hc => hc.2.2⟩
      · rw [if_neg h2]
        simp only [Bool.false_eq_true, false_iff]
        intro hc
        exact h2 ((runInc_eq_true_iff _ _).mpr hc.2.1)
    · rw [if_neg h1]
      simp only [Bool.false_eq_true, false_iff]
      intro hc
      exact h1 ((runFns_eq_true_iff _ _).mpr hc.1)
  · intro p ps hps hp
    unfold accept
    rw [hps]
    unfold runFns
    rw [hp]
    simp

/-- Claim C8 witness: a filter whose first predicate fails rejects a diagram
without regard to its second predicate or its inclusion pattern. -/
theorem c8_witness :
    accept
      { inclusion_subgraphs := [{ graph := pathCNH, instruction := "inc" }],
        exclusion_subgraphs := [],
        cd_filter_functions := [fun _ => false, fun _ => true] } triCNH = false :=
  (c8_accept_spec _ triCNH).2 (fun _ => false) [fun _ => true] rfl rfl

/-! ### Claim C4: the oxygen/hydrogen correction -/

theorem listContains_iff {l : List Nat} {x : Nat} : l.contains x = true ↔ x ∈ l := by
  simp [List.contains]

theorem mem_oxyQual_hnbs {g : CG} {n m : Nat} :
    m ∈ (oxyQualData g n).2 ↔
      ∃ e ∈ g.bonds, bondTouches e n = true ∧ isHD g (bondOther e n) = true ∧
        bondOther e n = m := by
  unfold oxyQualData
  simp only [List.mem_filterMap, List.mem_filter]
  constructor
  · rintro ⟨e, ⟨he, ht⟩, hsome⟩
    by_cases hhd : isHD g (bondOther e n) = true
    · rw [if_pos hhd] at hsome
      exact ⟨e, he, ht, hhd, Option.some.inj hsome⟩
    · rw [if_neg hhd] at hsome
      exact absurd hsome (by simp)
  · rintro ⟨e, he, ht, hhd, hm⟩
    exact ⟨e, ⟨he, ht⟩, by rw [if_pos hhd, hm]⟩

theorem mem_oxyQual_flags {g : CG} {n : Nat} {b : Bool} :
    b ∈ (oxyQualData g n).1 ↔
      ∃ e ∈ g.bonds, bondTouches e n = true ∧ isHD g (bondOther e n) = false ∧
        e.polymeric = b := by
  unfold oxyQualData
  simp only [List.mem_filterMap, List.mem_filter]
  constructor
  · rintro ⟨e, ⟨he, ht⟩, hsome⟩
    by_cases hhd : isHD g (bondOther e n) = true
    · rw [if_pos hhd] at hsome
      exact absurd hsome (by simp)
    · rw [if_neg hhd] at hsome
      exact ⟨e, he, ht, Bool.eq_false_iff.mpr hhd, Option.some.inj hsome⟩
  · rintro ⟨e, he, ht, hhd, hb⟩
    refine ⟨e, ⟨he, ht⟩, ?_⟩
    rw [if_neg (by rw [hhd]; exact fun hc => absurd hc (by simp)), hb]

theorem mem_oxyChange_iff {g : CG} {o : Nat} {hs : List Nat} :
    (o, hs) ∈ oxyChange g ↔
      ∃ a ∈ g.atoms, a.id = o ∧ OxyQualA g a ∧ hs = (oxyQualData g o).2 := by
  unfold oxyChange
  simp only [List.mem_filterMap]
  constructor
  · rintro ⟨a, ha, hsome⟩
    by_cases hO : a.symbol == "O"
    · rw [if_pos hO] at hsome
      by_cases hflag : ((oxyQualData g a.id).1.all (fun x => x) && !(oxyQualData g a.id).1.isEmpty) = true
      · rw [if_pos hflag] at hsome
        have hpair : (a.id, (oxyQualData g a.id).2) = (o, hs) := Option.some.inj hsome
        have ho : a.id = o := congrArg Prod.fst hpair
        have hq2 : (oxyQualData g a.id).2 = hs := congrArg Prod.snd hpair
        have hall := (Bool.and_eq_true _ _).mp hflag |>.1
        have hne := (Bool.and_eq_true _ _).mp hflag |>.2
        have hOq : a.symbol = "O" := by simpa using hO
        refine ⟨a, ha, ho, ⟨hOq, ?_, ?_⟩, by rw [← ho]; exact hq2.symm⟩
        · have hnil : (oxyQualData g a.id).1 ≠ [] := by
            intro hnil
            rw [hnil] at hne
            exact absurd hne (by simp)
          rcases List.exists_mem_of_ne_nil _ hnil with ⟨b, hb⟩
          rcases mem_oxyQual_flags.mp hb with ⟨e, he, ht, hhd, _⟩
          exact ⟨e, he, ht, hhd⟩
        · intro e he ht hhd
          have hb : e.polymeric ∈ (oxyQualData g a.id).1 :=
            mem_oxyQual_flags.mpr ⟨e, he, ht, hhd, rfl⟩
          exact List.all_eq_true.mp hall _ hb
      · rw [if_neg hflag] at hsome
        exact absurd hsome (by simp)
    · rw [if_neg hO] at hsome
      exact absurd hsome (by simp)
  · rintro ⟨a, ha, ho, ⟨hO, hex, hall⟩, hhs⟩
    refine ⟨a, ha, ?_⟩
    rw [if_pos (by simp [hO])]
    have h1 : (oxyQualData g a.id).1.all (fun x => x) = true := by
      apply List.all_eq_true.mpr
      intro b hb
      rcases mem_oxyQual_flags.mp hb with ⟨e, he, ht, hhd, hpb⟩
      rw [← hpb]
      exact hall e he ht hhd
    have h2 : (oxyQualData g a.id).1.isEmpty = false := by
      rcases hex with ⟨e, he, ht, hhd⟩
      have hmem : e.polymeric ∈ (oxyQualData g a.id).1 :=
        mem_oxyQual_flags.mpr ⟨e, he, ht, hhd, rfl⟩
      rcases hl : (oxyQualData g a.id).1 with _ | ⟨x, xs⟩
      · rw [hl] at hmem
        exact absurd hmem (by simp)
      · rfl
    rw [if_pos (by rw [h1, h2]; rfl)]
    rw [ho, hhs]

theorem oxyCondB_true_of {g : CG} {a : Atom} {e : Bond} (ha : a ∈ g.atoms)
    (hq : OxyQualA g a) (he : e ∈ g.bonds) (ht : bondTouches e a.id = true)
    (hhd : isHD g (bondOther e a.id) = true) : oxyCondB g e = true := by
  unfold oxyCondB
  apply List.any_eq_true.mpr
  refine ⟨(a.id, (oxyQualData g a.id).2), mem_oxyChange_iff.mpr ⟨a, ha, rfl, hq, rfl⟩, ?_⟩
  by_cases hea : e.a = a.id
  · have hbo : bondOther e a.id = e.b := by
      unfold bondOther
      rw [if_pos (by simpa using hea)]
    have hmem : (oxyQualData g a.id).2.contains e.b = true :=
      listContains_iff.mpr (mem_oxyQual_hnbs.mpr ⟨e, he, ht, hbo ▸ hhd, hbo⟩)
    simp only [hea, beq_self_eq_true, Bool.true_and]
    simp only [Bool.or_eq_true, Bool.and_eq_true]
    exact Or.inl (by simpa using hmem)
  · have heb : e.b = a.id := by
      rcases bondTouches_iff.mp ht with h | h
      · exact absurd h hea
      · exact h
    have hbo : bondOther e a.id = e.a := by
      unfold bondOther
      rw [if_neg (by simpa using hea)]
    have hmem : (oxyQualData g a.id).2.contains e.a = true :=
      listContains_iff.mpr (mem_oxyQual_hnbs.mpr ⟨e, he, ht, hbo ▸ hhd, hbo⟩)
    simp only [heb, beq_self_eq_true, Bool.true_and]
    simp only [Bool.or_eq_true, Bool.and_eq_true]
    exact Or.inr (by simpa using hmem)

theorem oxyCondB_false_of {g : CG} {e : Bond} (hnp : ¬OxyHPair g e) :
    oxyCondB g e = false := by
  apply Bool.eq_false_iff.mpr
  intro hc
  rcases List.any_eq_true.mp hc with ⟨q, hq, hcond⟩
  rcases q with ⟨o, hs⟩
  rcases mem_oxyChange_iff.mp hq with ⟨a, ha, ho, haq, hhs⟩
  apply hnp
  rcases (Bool.or_eq_true _ _).mp hcond with hl | hr
  · have hea : e.a = o := by simpa using ((Bool.and_eq_true _ _).mp hl).1
    have hcb := ((Bool.and_eq_true _ _).mp hl).2
    have hbmem : e.b ∈ (oxyQualData g o).2 := by
      rw [← hhs]
      exact listContains_iff.mp hcb
    rcases mem_oxyQual_hnbs.mp hbmem with ⟨e2, _, _, hhd2, hbo2⟩
    have hbH : isHD g e.b = true := hbo2 ▸ hhd2
    have ht : bondTouches e a.id = true := bondTouches_iff.mpr (Or.inl (ho ▸ hea))
    have hbo : bondOther e a.id = e.b := by
      unfold bondOther
      rw [if_pos (by simp [hea, ho])]
    exact ⟨a, ha, haq, ht, by rw [hbo]; exact hbH⟩
  · have heb : e.b = o := by simpa using ((Bool.and_eq_true _ _).mp hr).1
    have hca := ((Bool.and_eq_true _ _).mp hr).2
    have hamem : e.a ∈ (oxyQualData g o).2 := by
      rw [← hhs]
      exact listContains_iff.mp hca
    rcases mem_oxyQual_hnbs.mp hamem with ⟨e2, _, _, hhd2, hbo2⟩
    have haH : isHD g e.a = true := hbo2 ▸ hhd2
    have ht : bondTouches e a.id = true := bondTouches_iff.mpr (Or.inr (ho ▸ heb))
    by_cases hea : e.a = a.id
    · have hbo : bondOther e a.id = e.b := by
        unfold bondOther
        rw [if_pos (by simpa using hea)]
      have hab : e.b = e.a := by rw [heb, ← ho, hea]
      exact ⟨a, ha, haq, ht, by rw [hbo, hab]; exact haH⟩
    · have hbo : bondOther e a.id = e.a := by
        unfold bondOther
        rw [if_neg (by simpa using hea)]
      exact ⟨a, ha, haq, ht, by rw [hbo]; exact haH⟩

/-- Claim C4 (amended): in the diagram-construction correction, for every
oxygen atom that has AT LEAST ONE bond to a non-hydrogen neighbor and whose
every such bond is polymeric, every bond from that oxygen to a hydrogen or
deuterium neighbor is reclassified as polymeric; bonds not running between a
qualifying oxygen and one of its H/D neighbors are unchanged.  (The source
requires `len(edge_poly) > 0`, so an oxygen with NO non-hydrogen neighbor -
the vacuous case the claim includes - is NOT corrected.) -/
theorem c4_oxygen_correction (g : CG) (a : Atom) (ha : a ∈ g.atoms) (hq : OxyQualA g a) :
    (∀ e ∈ (oxygen_correction g).bonds,
      bondTouches e a.id = true → isHD g (bondOther e a.id) = true → e.polymeric = true) ∧
    (∀ e ∈ g.bonds, ¬OxyHPair g e → e ∈ (oxygen_correction g).bonds) := by
  have hbonds : (oxygen_correction g).bonds =
      g.bonds.map (fun e => if oxyCondB g e then { e with polymeric := true } else e) := rfl
  constructor
  · intro e' he' ht hh
    rw [hbonds] at he'
    rcases List.mem_map.mp he' with ⟨e, he, hFe⟩
    by_cases hc : oxyCondB g e = true
    · rw [if_pos hc] at hFe
      rw [← hFe]
    · rw [if_neg hc] at hFe
      subst hFe
      exact absurd (oxyCondB_true_of ha hq he ht hh) hc
  · intro e he hnp
    rw [hbonds]
    apply List.mem_map.mpr
    refine ⟨e, he, ?_⟩
    rw [oxyCondB_false_of hnp]
    simp

/-- Claim C4 counterexample: in `waterOH` the oxygen (node 0) has no bond to
a non-hydrogen neighbor at all, so the claim's vacuous qualifying condition
holds, yet the correction leaves the solid O-H bond untouched - it is not
reclassified as polymeric. -/
theorem c4_counterexample :
    (∀ e ∈ waterOH.bonds, bondTouches e 0 = true → isHD waterOH (bondOther e 0) = false →
      e.polymeric = true) ∧
    oxygen_correction waterOH = waterOH ∧
    waterOH.bonds = [{ a := 0, b := 1, polymeric := false, bondtype := 1 }] := by
  refine ⟨by decide, by rfl, rfl⟩

/-- Claim C4 witness: in `frameworkOH` the oxygen qualifies (two polymeric
bonds to iron, one solid bond to hydrogen), and applying the amended theorem
shows the corrected O-H bond polymeric. -/
theorem c4_witness :
    OxyQualA frameworkOH { id := 0, symbol := "O", charge := 0 } ∧
    ({ a := 0, b := 1, polymeric := true, bondtype := 1 } : Bond).polymeric = true :=
  ⟨by decide,
   (c4_oxygen_correction frameworkOH { id := 0, symbol := "O", charge := 0 }
      (by decide) (by decide)).1
      { a := 0, b := 1, polymeric := true, bondtype := 1 } (by decide) (by decide) (by decide)⟩

/-! ### Claim C3: the `M-` macro expansion -/

/-- Claim C3 (amended): for the rules string
`"line graph exclusion: any M-Cl,"` with `metal_only = true`, the compiler
appends one expansion per metal symbol (with `"M-"` replaced by `"{m}-"`)
after all original lines, and ALSO compiles the original `"M-"` line itself:
the exclusion output is the literal `M-Cl` pattern followed by one
`{metal}-Cl` two-node pattern per metal symbol, and the inclusion output is
empty.  (Exactly one compiled pattern has a node whose symbol is literally
`"M"` - the compiled original line.) -/
theorem c3_m_macro_expansion :
    (generate_subgraph_rules "line graph exclusion: any M-Cl," true).map
      (fun pr => (pr.1.length, pr.2.map (fun p => p.graph.atoms.map Atom.symbol)))
      = Except.ok (0, ["M", "Cl"] :: Metals.map (fun m => [m, "Cl"])) := by rfl

/-- Claim C3 counterexample: compiling
`"line graph exclusion: any M-Cl,"` with `metal_only = true` DOES compile the
original `"M-"` line: the first compiled exclusion pattern has a node whose
symbol is literally `"M"`. -/
theorem c3_counterexample :
    (generate_subgraph_rules "line graph exclusion: any M-Cl," true).map
      (fun pr => pr.2.head?.map (fun p => p.graph.atoms.map Atom.symbol))
      = Except.ok (some ["M", "Cl"]) := by rfl

/-! ### Claim C2: the halide branch of `is_metal_oxide_or_halide` -/

/-- Claim C2: the halide mode (`metal_oxide = false`) of
`is_metal_oxide_or_halide` is broken: on the connected anion `Na-Cl` diagram,
which has a direct metal-halogen bond (so the claim demands `true`), the
function returns `false` - the branch collects the INCLUSION side of rules
written with the `exclusion` keyword, so its pattern list is always empty,
contradicting the function's own docstring (`for halide: has a MX
subgraph`). -/
theorem c2_halide_branch_bug :
    is_metal_oxide_or_halide naclCG false true true = Except.ok false ∧
    isConnected naclCG = true ∧
    total_charge naclCG = -1 ∧
    "Na" ∈ Metals ∧
    contains_subgraph naclCG (gen_line_graph ["Na", "Cl"]) = true := by
  refine ⟨by rfl, by rfl, by rfl, by decide, by rfl⟩

/-! ### Claim C1: `contains_subgraph` and its matching semantics -/

theorem getD_of_lt {α : Type} (l : List α) (d : α) (i : Nat) (h : i < l.length) :
    l.getD i d = l.get ⟨i, h⟩ := by
  rw [List.getD_eq_getElem?_getD, List.getElem?_eq_getElem h]
  simp [List.get_eq_getElem]

theorem atomAt_eq {g : CG} {i : Nat} (h : i < g.atoms.length) :
    atomAt g i = g.atoms.get ⟨i, h⟩ :=
  getD_of_lt _ _ _ h

theorem mem_assignments {n : Nat} : ∀ {k : Nat} {xs : List Nat},
    xs ∈ assignments n k ↔ xs.length = k ∧ ∀ x ∈ xs, x < n := by
  intro k
  induction k with
  | zero =>
    intro xs
    constructor
    · intro h
      have : xs = [] := by simpa [assignments] using h
      subst this
      exact ⟨rfl, by intro x hx; exact absurd hx (by simp)⟩
    · rintro ⟨hlen, _⟩
      have : xs = [] := List.length_eq_zero.mp hlen
      subst this
      simp [assignments]
  | succ k ih =>
    intro xs
    constructor
    · intro h
      unfold assignments at h
      rcases List.mem_flatMap.mp h with ⟨i, hi, hxs⟩
      rcases List.mem_map.mp hxs with ⟨ys, hys, hcons⟩
      rcases ih.mp hys with ⟨hyl, hyb⟩
      subst hcons
      refine ⟨by simp [hyl], ?_⟩
      intro x hx
      rcases List.mem_cons.mp hx with rfl | hx2
      · exact List.mem_range.mp hi
      · exact hyb x hx2
    · rintro ⟨hlen, hb⟩
      rcases xs with _ | ⟨x, ys⟩
      · exact absurd hlen (by simp)
      · unfold assignments
        apply List.mem_flatMap.mpr
        refine ⟨x, List.mem_range.mpr (hb x (by simp)), ?_⟩
        apply List.mem_map.mpr
        refine ⟨ys, ih.mpr ⟨by simpa using hlen, ?_⟩, rfl⟩
        intro y hy
        exact hb y (List.mem_cons_of_mem x hy)

theorem allDistinct_iff : ∀ {xs : List Nat}, allDistinct xs = true ↔ xs.Nodup := by
  intro xs
  induction xs with
  | nil => simp [allDistinct]
  | cons x ys ih =>
    unfold allDistinct
    rw [Bool.and_eq_true, List.nodup_cons, ih]
    constructor
    · rintro ⟨h1, h2⟩
      refine ⟨?_, h2⟩
      intro hx
      have := listContains_iff.mpr hx
      rw [this] at h1
      exact absurd h1 (by simp)
    · rintro ⟨h1, h2⟩
      refine ⟨?_, h2⟩
      have : ys.contains x = false := by
        apply Bool.eq_false_iff.mpr
        intro hc
        exact h1 (listContains_iff.mp hc)
      rw [this]
      rfl

theorem contains_subgraph_iff_induced (d p : CG) :
    contains_subgraph d p = true ↔ InducedEmbedding d p := by
  unfold contains_subgraph
  rw [List.any_eq_true]
  constructor
  · rintro ⟨xs, hmem, hchk⟩
    rcases mem_assignments.mp hmem with ⟨hlen, hbound⟩
    unfold checkInduced at hchk
    rcases (Bool.and_eq_true _ _).mp hchk with ⟨hchk1, hedg⟩
    rcases (Bool.and_eq_true _ _).mp hchk1 with ⟨hdist, hsym⟩
    have hnd : xs.Nodup := allDistinct_iff.mp hdist
    have hib : ∀ i : Fin p.atoms.length, i.1 < xs.length := by
      intro i
      rw [hlen]
      exact i.2
    have hgb : ∀ i : Fin p.atoms.length, xs.get ⟨i.1, hib i⟩ < d.atoms.length := by
      intro i
      exact hbound _ (xs.get_mem _ _)
    refine ⟨fun i => ⟨xs.get ⟨i.1, hib i⟩, hgb i⟩, ?_, ?_, ?_⟩
    · intro i j hij
      have hv : xs.get ⟨i.1, hib i⟩ = xs.get ⟨j.1, hib j⟩ := congrArg Fin.val hij
      have hmk := List.nodup_iff_injective_get.mp hnd hv
      have hval : i.1 = j.1 := by simpa using hmk
      exact Fin.ext hval
    · intro i
      have h0 := List.all_eq_true.mp hsym i.1 (List.mem_range.mpr i.2)
      have h1 : (atomAt p i.1).symbol = (atomAt d (xs.getD i.1 0)).symbol := by
        simpa using h0
      rw [atomAt_eq i.2, getD_of_lt _ _ _ (hib i), atomAt_eq (hgb i)] at h1
      exact h1
    · intro i j
      have h0 := List.all_eq_true.mp hedg i.1 (List.mem_range.mpr i.2)
      have h1 := List.all_eq_true.mp h0 j.1 (List.mem_range.mpr j.2)
      have h2 : hasEdge p (atomAt p i.1).id (atomAt p j.1).id =
          hasEdge d (atomAt d (xs.getD i.1 0)).id (atomAt d (xs.getD j.1 0)).id := by
        simpa using h1
      rw [atomAt_eq i.2, atomAt_eq j.2, getD_of_lt _ _ _ (hib i), getD_of_lt _ _ _ (hib j),
        atomAt_eq (hgb i), atomAt_eq (hgb j)] at h2
      exact h2
  · rintro ⟨f, hinj, hsym, hedg⟩
    refine ⟨List.ofFn (fun i => (f i).1), ?_, ?_⟩
    · apply mem_assignments.mpr
      constructor
      · simp
      · intro x hx
        rcases Set.mem_range.mp ((List.mem_ofFn _ _).mp hx) with ⟨i, rfl⟩
        exact (f i).2
    · have hlen : (List.ofFn (fun i => (f i).1)).length = p.atoms.length := by simp
      have hget : ∀ (i : Nat) (hi : i < p.atoms.length),
          (List.ofFn (fun j => (f j).1)).getD i 0 = (f ⟨i, hi⟩).1 := by
        intro i hi
        rw [getD_of_lt _ _ _ (by rw [hlen]; exact hi), List.get_ofFn]
        rfl
      unfold checkInduced
      apply (Bool.and_eq_true _ _).mpr
      constructor
      · apply (Bool.and_eq_true _ _).mpr
        constructor
        · apply allDistinct_iff.mpr
          apply List.nodup_ofFn.mpr
          intro i j hij
          exact hinj (Fin.ext hij)
        · apply List.all_eq_true.mpr
          intro i hi
          have hi' := List.mem_range.mp hi
          apply beq_iff_eq.mpr
          rw [hget i hi', atomAt_eq hi', atomAt_eq (f ⟨i, hi'⟩).2]
          exact hsym ⟨i, hi'⟩
      · apply List.all_eq_true.mpr
        intro i hi
        have hi' := List.mem_range.mp hi
        apply List.all_eq_true.mpr
        intro j hj
        have hj' := List.mem_range.mp hj
        apply beq_iff_eq.mpr
        rw [hget i hi', hget j hj', atomAt_eq hi', atomAt_eq hj',
          atomAt_eq (f ⟨i, hi'⟩).2, atomAt_eq (f ⟨j, hj'⟩).2]
        exact hedg ⟨i, hi'⟩ ⟨j, hj'⟩

theorem nodeIds_length (g : CG) : (nodeIds g).length = g.atoms.length := by
  simp [nodeIds]

theorem nodeIds_get (g : CG) (i : Fin g.atoms.length) :
    (nodeIds g).get ⟨i.1, by rw [nodeIds_length]; exact i.2⟩ = (g.atoms.get i).id := by
  simp [nodeIds, List.get_eq_getElem]

theorem atom_id_get_inj {g : CG} (h : (nodeIds g).Nodup) {i j : Fin g.atoms.length}
    (hij : (g.atoms.get i).id = (g.atoms.get j).id) : i = j := by
  have hinj := List.nodup_iff_injective_get.mp h
  have h1 : (nodeIds g).get ⟨i.1, by rw [nodeIds_length]; exact i.2⟩ =
      (nodeIds g).get ⟨j.1, by rw [nodeIds_length]; exact j.2⟩ := by
    rw [nodeIds_get, nodeIds_get]
    exact hij
  have hmk := hinj h1
  exact Fin.ext (by simpa using hmk)

theorem find_atom_by_id : ∀ {l : List Atom}, (l.map Atom.id).Nodup →
    ∀ (i : Fin l.length), l.find? (fun a => a.id == (l.get i).id) = some (l.get i) := by
  intro l
  induction l with
  | nil =>
    intro _ i
    exact absurd i.2 (by simp)
  | cons a rest ih =>
    intro h i
    rcases i with ⟨iv, hiv⟩
    cases iv with
    | zero =>
      have hget : (a :: rest).get ⟨0, hiv⟩ = a := rfl
      rw [hget]
      rw [List.find?_cons_of_pos _ (by simp)]
    | succ n =>
      have hlt : n < rest.length := by simpa using hiv
      have hget : (a :: rest).get ⟨n + 1, hiv⟩ = rest.get ⟨n, hlt⟩ := rfl
      rw [hget]
      have hnodup : (a.id :: rest.map Atom.id).Nodup := by simpa using h
      rw [List.find?_cons_of_neg]
      · exact ih (List.nodup_cons.mp hnodup).2 ⟨n, hlt⟩
      · intro hc
        have hane : a.id ∉ rest.map Atom.id := (List.nodup_cons.mp hnodup).1
        have heq : a.id = (rest.get ⟨n, hlt⟩).id := by simpa using hc
        rw [heq] at hane
        exact hane (List.mem_map_of_mem _ (rest.get_mem _ _))

theorem symbolOf_get {g : CG} (h : (nodeIds g).Nodup) (i : Fin g.atoms.length) :
    symbolOf g ((g.atoms.get i).id) = some ((g.atoms.get i).symbol) := by
  unfold symbolOf
  rw [find_atom_by_id h i]
  rfl

/-- Claim C1 (amended): `contains_subgraph` returns true if and only if there
is an injective mapping of the pattern's node ids into the diagram's node ids
with equal `symbol` attributes under which pattern edges and diagram edges
between mapped nodes correspond EXACTLY (node-induced subgraph isomorphism,
the documented semantics of `GraphMatcher.subgraph_is_isomorphic`): extra
diagram edges between mapped nodes are NOT irrelevant, and in particular the
3-node path C-N-H is not contained in a C,N,H triangle. -/
theorem c1_contains_subgraph_spec (d p : CG)
    (hd : (nodeIds d).Nodup) (hp : (nodeIds p).Nodup) :
    contains_subgraph d p = true ↔
      ∃ m : Nat → Nat,
        (∀ x ∈ nodeIds p, m x ∈ nodeIds d) ∧
        (∀ x ∈ nodeIds p, ∀ y ∈ nodeIds p, m x = m y → x = y) ∧
        (∀ x ∈ nodeIds p, symbolOf p x = symbolOf d (m x)) ∧
        (∀ x ∈ nodeIds p, ∀ y ∈ nodeIds p, hasEdge p x y = hasEdge d (m x) (m y)) := by
  rw [contains_subgraph_iff_induced]
  constructor
  · rintro ⟨f, hinj, hsym, hedg⟩
    have hidxlt : ∀ x ∈ nodeIds p, (nodeIds p).indexOf x < p.atoms.length := by
      intro x hx
      rw [← nodeIds_length]
      exact List.indexOf_lt_length.mpr hx
    have hrec : ∀ (x : Nat) (hx : x ∈ nodeIds p),
        (p.atoms.get ⟨(nodeIds p).indexOf x, hidxlt x hx⟩).id = x := by
      intro x hx
      rw [← nodeIds_get p ⟨(nodeIds p).indexOf x, hidxlt x hx⟩]
      exact List.indexOf_get (List.indexOf_lt_length.mpr hx)
    refine ⟨fun x => if hx : x ∈ nodeIds p
        then (d.atoms.get (f ⟨(nodeIds p).indexOf x, hidxlt x hx⟩)).id else x, ?_, ?_, ?_, ?_⟩
    · intro x hx
      simp only [dif_pos hx]
      exact List.mem_map_of_mem _ (d.atoms.get_mem _ _)
    · intro x hx y hy heq
      simp only [dif_pos hx, dif_pos hy] at heq
      have hfij := atom_id_get_inj hd heq
      have hij := hinj hfij
      rw [← hrec x hx, ← hrec y hy, hij]
    · intro x hx
      simp only [dif_pos hx]
      have h1 := symbolOf_get hp ⟨(nodeIds p).indexOf x, hidxlt x hx⟩
      rw [hrec x hx] at h1
      rw [h1, symbolOf_get hd (f ⟨(nodeIds p).indexOf x, hidxlt x hx⟩)]
      exact congrArg some (hsym _)
    · intro x hx y hy
      simp only [dif_pos hx, dif_pos hy]
      have h1 := hedg ⟨(nodeIds p).indexOf x, hidxlt x hx⟩ ⟨(nodeIds p).indexOf y, hidxlt y hy⟩
      rw [hrec x hx, hrec y hy] at h1
      exact h1
  · rintro ⟨m, hmem, hmin, hmsy, hmed⟩
    have hpm : ∀ i : Fin p.atoms.length, (p.atoms.get i).id ∈ nodeIds p := by
      intro i
      exact List.mem_map_of_mem _ (p.atoms.get_mem _ _)
    have hdlt : ∀ i : Fin p.atoms.length,
        (nodeIds d).indexOf (m ((p.atoms.get i).id)) < d.atoms.length := by
      intro i
      rw [← nodeIds_length]
      exact List.indexOf_lt_length.mpr (hmem _ (hpm i))
    have hkey : ∀ i : Fin p.atoms.length,
        (d.atoms.get ⟨(nodeIds d).indexOf (m ((p.atoms.get i).id)), hdlt i⟩).id =
          m ((p.atoms.get i).id) := by
      intro i
      rw [← nodeIds_get d ⟨(nodeIds d).indexOf (m ((p.atoms.get i).id)), hdlt i⟩]
      exact List.indexOf_get (List.indexOf_lt_length.mpr (hmem _ (hpm i)))
    refine ⟨fun i => ⟨(nodeIds d).indexOf (m ((p.atoms.get i).id)), hdlt i⟩, ?_, ?_, ?_⟩
    · intro i j hij
      have hvali : (d.atoms.get ⟨(nodeIds d).indexOf (m ((p.atoms.get i).id)), hdlt i⟩).id =
          (d.atoms.get ⟨(nodeIds d).indexOf (m ((p.atoms.get j).id)), hdlt j⟩).id :=
        congrArg (fun z => (d.atoms.get z).id) hij
      rw [hkey i, hkey j] at hvali
      have hxy := hmin _ (hpm i) _ (hpm j) hvali
      exact atom_id_get_inj hp hxy
    · intro i
      have h1 := hmsy _ (hpm i)
      rw [symbolOf_get hp i] at h1
      have h2 := symbolOf_get hd ⟨(nodeIds d).indexOf (m ((p.atoms.get i).id)), hdlt i⟩
      rw [hkey i] at h2
      rw [h2] at h1
      exact Option.some.inj h1
    · intro i j
      have h1 := hmed _ (hpm i) _ (hpm j)
      rw [← hkey i, ← hkey j] at h1
      exact h1

/-- Claim C1 counterexample: the 3-node path pattern C-N-H admits a
symbol-preserving subgraph MONOMORPHISM into the C,N,H triangle, yet
`contains_subgraph` returns false there (the library call implements
node-induced subgraph isomorphism, not monomorphism), so the claimed "if and
only if" fails at this input. -/
theorem c1_counterexample :
    contains_subgraph triCNH pathCNH = false ∧
    pathCNH = gen_line_graph ["C", "N", "H"] ∧
    MonoEmbedding triCNH pathCNH := by
  refine ⟨by rfl, by rfl, ?_⟩
  refine ⟨Fin.cast rfl, Fin.cast_injective rfl, ?_, ?_⟩
  · decide
  · decide

/-- Claim C1 witness: the amended characterization applied to the one-atom
carbon diagram, which contains itself via the identity mapping. -/
theorem c1_witness :
    ∃ m : Nat → Nat,
      (∀ x ∈ nodeIds singleC, m x ∈ nodeIds singleC) ∧
      (∀ x ∈ nodeIds singleC, ∀ y ∈ nodeIds singleC, m x = m y → x = y) ∧
      (∀ x ∈ nodeIds singleC, symbolOf singleC x = symbolOf singleC (m x)) ∧
      (∀ x ∈ nodeIds singleC, ∀ y ∈ nodeIds singleC,
        hasEdge singleC x y = hasEdge singleC (m x) (m y)) :=
  (c1_contains_subgraph_spec singleC singleC (by decide) (by decide)).mp (by rfl)

/-! ### Claim C5: connected components partition the node set -/

theorem hasEdge_comm (g : CG) (x y : Nat) : hasEdge g x y = hasEdge g y x := by
  unfold hasEdge
  congr 1
  funext e
  rw [Bool.or_comm]

theorem subset_expandOnce (g : CG) (s : List Nat) : s ⊆ expandOnce g s := by
  intro x hx
  exact List.mem_append.mpr (Or.inl hx)

theorem mem_expandOnce {g : CG} {s : List Nat} {x : Nat} (h : x ∈ expandOnce g s) :
    x ∈ s ∨ (x ∈ nodeIds g ∧ ∃ w ∈ s, hasEdge g w x = true) := by
  rcases List.mem_append.mp h with h1 | h2
  · exact Or.inl h1
  · rcases List.mem_filter.mp h2 with ⟨hn, hpred⟩
    rcases (Bool.and_eq_true _ _).mp hpred with ⟨_, hany⟩
    rcases List.any_eq_true.mp hany with ⟨w, hw, hedge⟩
    exact Or.inr ⟨hn, w, hw, hedge⟩

theorem subset_reachAux (g : CG) : ∀ (k : Nat) (s : List Nat), s ⊆ reachAux g k s := by
  intro k
  induction k with
  | zero => intro s; exact fun x hx => hx
  | succ k ih =>
    intro s
    exact fun x hx => ih (expandOnce g s) (subset_expandOnce g s hx)

theorem mem_of_reaches {g : CG} {n m : Nat} (hn : n ∈ nodeIds g) (h : Reaches g n m) :
    m ∈ nodeIds g := by
  induction h with
  | refl => exact hn
  | tail _ hbc ih => exact hbc.2.1

theorem reachAux_sound {g : CG} {n : Nat} (hn : n ∈ nodeIds g) :
    ∀ (k : Nat) (s : List Nat), (∀ w ∈ s, Reaches g n w) →
      ∀ x ∈ reachAux g k s, Reaches g n x := by
  intro k
  induction k with
  | zero => intro s hs x hx; exact hs x hx
  | succ k ih =>
    intro s hs x hx
    apply ih (expandOnce g s) ?_ x hx
    intro w hw
    rcases mem_expandOnce hw with h1 | ⟨hwn, u, hu, hedge⟩
    · exact hs w h1
    · have hru := hs u hu
      exact Relation.ReflTransGen.tail hru ⟨mem_of_reaches hn hru, hwn, hedge⟩

theorem reachFrom_sound {g : CG} {n : Nat} (hn : n ∈ nodeIds g) :
    ∀ x ∈ reachFrom g n, Reaches g n x := by
  intro x hx
  apply reachAux_sound hn g.atoms.length [n] ?_ x hx
  intro w hw
  have : w = n := by simpa using hw
  rw [this]
  exact Relation.ReflTransGen.refl

/-- Measure for the saturation argument: how many distinct graph nodes the
set `s` already covers. -/
theorem seenCard_mono {g : CG} {s t : List Nat} (h : s ⊆ t) :
    ((nodeIds g).toFinset.filter (fun x => x ∈ s)).card ≤
      ((nodeIds g).toFinset.filter (fun x => x ∈ t)).card := by
  apply Finset.card_le_card
  intro x hx
  rcases Finset.mem_filter.mp hx with ⟨h1, h2⟩
  exact Finset.mem_filter.mpr ⟨h1, h h2⟩

theorem seenCard_strict {g : CG} {s t : List Nat} (hsub : s ⊆ t) {y : Nat}
    (hy : y ∈ nodeIds g) (hys : y ∉ s) (hyt : y ∈ t) :
    ((nodeIds g).toFinset.filter (fun x => x ∈ s)).card <
      ((nodeIds g).toFinset.filter (fun x => x ∈ t)).card := by
  apply Finset.card_lt_card
  rw [Finset.ssubset_def]
  constructor
  · intro x hx
    rcases Finset.mem_filter.mp hx with ⟨h1, h2⟩
    exact Finset.mem_filter.mpr ⟨h1, hsub h2⟩
  · intro hcon
    have hymem : y ∈ (nodeIds g).toFinset.filter (fun x => x ∈ t) :=
      Finset.mem_filter.mpr ⟨List.mem_toFinset.mpr hy, hyt⟩
    have := Finset.mem_filter.mp (hcon hymem)
    exact hys this.2

theorem expandOnce_progress {g : CG} {s : List Nat} (h : expandOnce g s ≠ s) :
    ∃ y, y ∈ nodeIds g ∧ y ∉ s ∧ y ∈ expandOnce g s := by
  rcases hf : (nodeIds g).filter (fun m => !(s.contains m) && s.any (fun x => hasEdge g x m)) with
    _ | ⟨y, ys⟩
  · exact absurd (by unfold expandOnce; rw [hf]; exact List.append_nil s) h
  · have hy : y ∈ (nodeIds g).filter (fun m => !(s.contains m) && s.any (fun x => hasEdge g x m)) := by
      rw [hf]
      exact List.mem_cons_self y ys
    rcases List.mem_filter.mp hy with ⟨h1, h2⟩
    rcases (Bool.and_eq_true _ _).mp h2 with ⟨h3, _⟩
    refine ⟨y, h1, ?_, List.mem_append.mpr (Or.inr hy)⟩
    intro hc
    have := listContains_iff.mpr hc
    rw [this] at h3
    exact absurd h3 (by simp)

theorem reachAux_fix {g : CG} : ∀ (k : Nat) (s : List Nat),
    expandOnce g s = s → reachAux g k s = s := by
  intro k
  induction k with
  | zero => intro s _; rfl
  | succ k ih =>
    intro s hfix
    have : reachAux g (k + 1) s = reachAux g k (expandOnce g s) := rfl
    rw [this, hfix]
    exact ih s hfix

theorem reachAux_growth (g : CG) : ∀ (k : Nat) (s : List Nat),
    expandOnce g (reachAux g k s) = reachAux g k s ∨
      k + ((nodeIds g).toFinset.filter (fun x => x ∈ s)).card ≤
        ((nodeIds g).toFinset.filter (fun x => x ∈ reachAux g k s)).card := by
  intro k
  induction k with
  | zero =>
    intro s
    exact Or.inr (by simp [reachAux])
  | succ k ih =>
    intro s
    have hstep : reachAux g (k + 1) s = reachAux g k (expandOnce g s) := rfl
    by_cases hfix : expandOnce g s = s
    · left
      rw [hstep, hfix, reachAux_fix k s hfix]
      exact hfix
    · rcases ih (expandOnce g s) with h1 | h2
      · left
        rw [hstep]
        exact h1
      · right
        rw [hstep]
        rcases expandOnce_progress hfix with ⟨y, hy, hys, hyt⟩
        have hstrict := seenCard_strict (subset_expandOnce g s) hy hys hyt
        omega

theorem seenCard_le (g : CG) (s : List Nat) :
    ((nodeIds g).toFinset.filter (fun x => x ∈ s)).card ≤ g.atoms.length := by
  calc ((nodeIds g).toFinset.filter (fun x => x ∈ s)).card
      ≤ (nodeIds g).toFinset.card := Finset.card_filter_le _ _
    _ ≤ (nodeIds g).length := (nodeIds g).toFinset_card_le
    _ = g.atoms.length := nodeIds_length g

theorem expandOnce_reachFrom (g : CG) (n : Nat) :
    expandOnce g (reachFrom g n) = reachFrom g n := by
  rcases reachAux_growth g g.atoms.length [n] with h1 | h2
  · exact h1
  · have hub := seenCard_le g (reachAux g g.atoms.length [n])
    have htf : (nodeIds g).toFinset.card ≤ g.atoms.length := by
      calc (nodeIds g).toFinset.card ≤ (nodeIds g).length := (nodeIds g).toFinset_card_le
        _ = g.atoms.length := nodeIds_length g
    have hge : (nodeIds g).toFinset.card ≤
        ((nodeIds g).toFinset.filter (fun x => x ∈ reachFrom g n)).card := by
      have hle2 : ((nodeIds g).toFinset.filter (fun x => x ∈ reachFrom g n)).card ≤
          (nodeIds g).toFinset.card := Finset.card_filter_le _ _
      unfold reachFrom
      omega
    have hall : ∀ x ∈ nodeIds g, x ∈ reachFrom g n := by
      intro x hx
      have heq := Finset.eq_of_subset_of_card_le (Finset.filter_subset _ _) hge
      have : x ∈ (nodeIds g).toFinset.filter (fun z => z ∈ reachFrom g n) := by
        rw [heq]
        exact List.mem_toFinset.mpr hx
      exact (Finset.mem_filter.mp this).2
    unfold expandOnce
    have hnil : (nodeIds g).filter
        (fun m => !((reachFrom g n).contains m) &&
          (reachFrom g n).any (fun x => hasEdge g x m)) = [] := by
      apply List.filter_eq_nil_iff.mpr
      intro m hm
      have hmem := hall m hm
      have : (reachFrom g n).contains m = true := listContains_iff.mpr hmem
      rw [this]
      simp
    rw [hnil]
    exact List.append_nil _

theorem reachFrom_closed {g : CG} {n x y : Nat} (hx : x ∈ reachFrom g n)
    (hy : y ∈ nodeIds g) (hedge : hasEdge g x y = true) : y ∈ reachFrom g n := by
  by_cases hc : y ∈ reachFrom g n
  · exact hc
  · have hmem : y ∈ expandOnce g (reachFrom g n) := by
      apply List.mem_append.mpr
      right
      apply List.mem_filter.mpr
      refine ⟨hy, ?_⟩
      apply (Bool.and_eq_true _ _).mpr
      constructor
      · have : (reachFrom g n).contains y = false := by
          apply Bool.eq_false_iff.mpr
          intro h
          exact hc (listContains_iff.mp h)
        rw [this]
        rfl
      · exact List.any_eq_true.mpr ⟨x, hx, hedge⟩
    rw [expandOnce_reachFrom] at hmem
    exact hmem

theorem reachFrom_complete {g : CG} {n m : Nat} (hn : n ∈ nodeIds g)
    (h : Reaches g n m) : m ∈ reachFrom g n := by
  induction h with
  | refl => exact subset_reachAux g g.atoms.length [n] (by simp)
  | tail _ hbc ih => exact reachFrom_closed ih hbc.2.1 hbc.2.2

theorem mem_reachFrom_iff {g : CG} {n m : Nat} (hn : n ∈ nodeIds g) :
    m ∈ reachFrom g n ↔ Reaches g n m :=
  ⟨reachFrom_sound hn m, reachFrom_complete hn⟩

theorem reaches_symm {g : CG} {n m : Nat} (hn : n ∈ nodeIds g) (h : Reaches g n m) :
    Reaches g m n := by
  induction h with
  | refl => exact Relation.ReflTransGen.refl
  | tail hab hbc ih =>
    exact Relation.ReflTransGen.head ⟨hbc.2.1, hbc.1, by rw [hasEdge_comm]; exact hbc.2.2⟩ ih

theorem reachFrom_subset_nodeIds {g : CG} {n : Nat} (hn : n ∈ nodeIds g) :
    reachFrom g n ⊆ nodeIds g := by
  intro x hx
  exact mem_of_reaches hn (reachFrom_sound hn x hx)

theorem reachFrom_disjoint {g : CG} {n1 n2 : Nat} (hn1 : n1 ∈ nodeIds g)
    (hn2 : n2 ∈ nodeIds g) (h : n2 ∉ reachFrom g n1) :
    ∀ m, m ∈ reachFrom g n1 → m ∉ reachFrom g n2 := by
  intro m hm1 hm2
  apply h
  apply reachFrom_complete hn1
  exact Relation.ReflTransGen.trans (reachFrom_sound hn1 m hm1)
    (reaches_symm hn2 (reachFrom_sound hn2 m hm2))

theorem compAux_are_reach {g : CG} : ∀ {l seen : List Nat} {c : List Nat},
    c ∈ compAux g l seen → ∃ n ∈ l, n ∉ seen ∧ c = reachFrom g n := by
  intro l
  induction l with
  | nil =>
    intro seen c hc
    exact absurd hc (by simp [compAux])
  | cons n rest ih =>
    intro seen c hc
    unfold compAux at hc
    by_cases hns : n ∈ seen
    · rw [if_pos hns] at hc
      rcases ih hc with ⟨m, hm, hms, hcm⟩
      exact ⟨m, List.mem_cons_of_mem n hm, hms, hcm⟩
    · rw [if_neg hns] at hc
      rcases List.mem_cons.mp hc with rfl | hc2
      · exact ⟨n, List.mem_cons_self n rest, hns, rfl⟩
      · rcases ih hc2 with ⟨m, hm, hms, hcm⟩
        refine ⟨m, List.mem_cons_of_mem n hm, ?_, hcm⟩
        intro hcon
        exact hms (List.mem_append.mpr (Or.inl hcon))

theorem compAux_cover {g : CG} : ∀ {l seen : List Nat} {m : Nat}, m ∈ l →
    m ∈ seen ∨ ∃ c ∈ compAux g l seen, m ∈ c := by
  intro l
  induction l with
  | nil =>
    intro seen m hm
    exact absurd hm (by simp)
  | cons n rest ih =>
    intro seen m hm
    unfold compAux
    by_cases hns : n ∈ seen
    · rw [if_pos hns]
      rcases List.mem_cons.mp hm with rfl | hm2
      · exact Or.inl hns
      · exact ih hm2
    · rw [if_neg hns]
      rcases List.mem_cons.mp hm with rfl | hm2
      · exact Or.inr ⟨reachFrom g m, List.mem_cons_self _ _,
          subset_reachAux g g.atoms.length [m] (by simp)⟩
      · rcases @ih (seen ++ reachFrom g n) m hm2 with h1 | ⟨c, hc, hmc⟩
        · rcases List.mem_append.mp h1 with h2 | h3
          · exact Or.inl h2
          · exact Or.inr ⟨reachFrom g n, List.mem_cons_self _ _, h3⟩
        · exact Or.inr ⟨c, List.mem_cons_of_mem _ hc, hmc⟩

theorem compAux_pairwise {g : CG} : ∀ {l seen : List Nat},
    (∀ x ∈ l, x ∈ nodeIds g) →
    List.Pairwise (fun c1 c2 => ∀ x ∈ c1, x ∉ c2) (compAux g l seen) := by
  intro l
  induction l with
  | nil =>
    intro seen _
    simp [compAux]
  | cons n rest ih =>
    intro seen hl
    unfold compAux
    by_cases hns : n ∈ seen
    · rw [if_pos hns]
      exact ih (fun x hx => hl x (List.mem_cons_of_mem n hx))
    · rw [if_neg hns]
      apply List.Pairwise.cons
      · intro c hc x hx
        rcases compAux_are_reach hc with ⟨m, hm, hms, rfl⟩
        have hmn : m ∉ reachFrom g n := by
          intro hcon
          exact hms (List.mem_append.mpr (Or.inr hcon))
        exact reachFrom_disjoint (hl n (List.mem_cons_self n rest))
          (hl m (List.mem_cons_of_mem n hm)) hmn x hx
      · exact ih (fun x hx => hl x (List.mem_cons_of_mem n hx))

theorem expandOnce_nodup {g : CG} (hg : (nodeIds g).Nodup) {s : List Nat}
    (hs : s.Nodup) : (expandOnce g s).Nodup := by
  apply List.Nodup.append hs (List.Nodup.filter _ hg)
  intro x hx hxf
  rcases List.mem_filter.mp hxf with ⟨_, hpred⟩
  rcases (Bool.and_eq_true _ _).mp hpred with ⟨hnc, _⟩
  have : s.contains x = true := listContains_iff.mpr hx
  rw [this] at hnc
  exact absurd hnc (by simp)

theorem reachAux_nodup {g : CG} (hg : (nodeIds g).Nodup) :
    ∀ (k : Nat) {s : List Nat}, s.Nodup → (reachAux g k s).Nodup := by
  intro k
  induction k with
  | zero => intro s hs; exact hs
  | succ k ih => intro s hs; exact ih (expandOnce_nodup hg hs)

theorem reachFrom_nodup {g : CG} (hg : (nodeIds g).Nodup) (n : Nat) :
    (reachFrom g n).Nodup :=
  reachAux_nodup hg g.atoms.length (by simp)

theorem getComponents_flatten_mem {g : CG} {x : Nat} :
    x ∈ (getComponents g).flatten ↔ x ∈ nodeIds g := by
  constructor
  · intro hx
    rcases List.mem_flatten.mp hx with ⟨c, hc, hxc⟩
    rcases compAux_are_reach hc with ⟨n, hn, _, rfl⟩
    exact reachFrom_subset_nodeIds hn hxc
  · intro hx
    rcases @compAux_cover g (nodeIds g) [] x hx with h1 | ⟨c, hc, hxc⟩
    · exact absurd h1 (by simp)
    · exact List.mem_flatten.mpr ⟨c, hc, hxc⟩

theorem getComponents_flatten_nodup {g : CG} (hg : (nodeIds g).Nodup) :
    ((getComponents g).flatten).Nodup := by
  apply List.nodup_flatten.mpr
  constructor
  · intro c hc
    rcases compAux_are_reach hc with ⟨n, _, _, rfl⟩
    exact reachFrom_nodup hg n
  · have hpw := @compAux_pairwise g (nodeIds g) [] (fun x hx => hx)
    apply List.Pairwise.imp ?_ hpw
    intro c1 c2 h x hx1 hx2
    exact h x hx1 hx2

theorem getComponents_length_sum {g : CG} (hg : (nodeIds g).Nodup) :
    ((getComponents g).map List.length).sum = g.atoms.length := by
  have h1 : ((getComponents g).map List.length).sum = ((getComponents g).flatten).length :=
    (List.length_flatten _).symm
  have hperm : (getComponents g).flatten.Perm (nodeIds g) := by
    apply List.Subperm.antisymm
    · exact List.subperm_of_subset (getComponents_flatten_nodup hg)
        (fun x hx => getComponents_flatten_mem.mp hx)
    · exact List.subperm_of_subset hg (fun x hx => getComponents_flatten_mem.mpr hx)
  rw [h1, hperm.length_eq, nodeIds_length]

theorem induced_atoms_length {g : CG} (hg : (nodeIds g).Nodup) {c : List Nat}
    (hc : c.Nodup) (hsub : c ⊆ nodeIds g) :
    (inducedSub g c).atoms.length = c.length := by
  have h1 : (inducedSub g c).atoms = g.atoms.filter (fun a => c.contains a.id) := rfl
  have h2 : ((nodeIds g).filter (fun x => c.contains x)).length =
      (g.atoms.filter (fun a => c.contains a.id)).length := by
    unfold nodeIds
    rw [List.filter_map, List.length_map]
    rfl
  have h3 : ((nodeIds g).filter (fun x => c.contains x)).Perm c := by
    apply List.Subperm.antisymm
    · apply List.subperm_of_subset (List.Nodup.filter _ hg)
      intro x hx
      exact listContains_iff.mp (List.mem_filter.mp hx).2
    · apply List.subperm_of_subset hc
      intro x hx
      exact List.mem_filter.mpr ⟨hsub hx, listContains_iff.mpr hx⟩
  rw [h1, ← h2, h3.length_eq]

/-- Claim C5 (amended): the components returned by `get_components` partition
the full node set of the diagram exactly (no node omitted, no node in two
components), and the sum over components of the number of nodes of the
component's FULL graph equals the number of nodes of the diagram's full
graph.  (Python `len(c)` of a component counts only the component's LOCAL
atoms, so the claim's stated sum fails on diagrams with framework-only
atoms - see the counterexample.) -/
theorem c5_components_partition (g : CG) (hg : (nodeIds g).Nodup) :
    List.Pairwise (fun c1 c2 => ∀ x ∈ c1, x ∉ c2) (getComponents g) ∧
    (∀ n, (∃ c ∈ getComponents g, n ∈ c) ↔ n ∈ nodeIds g) ∧
    ((getComponents g).map List.length).sum = g.atoms.length ∧
    ((get_components g).map (fun c => c.atoms.length)).sum = g.atoms.length := by
  refine ⟨compAux_pairwise (fun x hx => hx), ?_, getComponents_length_sum hg, ?_⟩
  · intro n
    constructor
    · rintro ⟨c, hc, hnc⟩
      exact getComponents_flatten_mem.mp (List.mem_flatten.mpr ⟨c, hc, hnc⟩)
    · intro hn
      rcases List.mem_flatten.mp (getComponents_flatten_mem.mpr hn) with ⟨c, hc, hnc⟩
      exact ⟨c, hc, hnc⟩
  · unfold get_components
    rw [List.map_map]
    have hcongr : ∀ c ∈ getComponents g,
        ((fun c : CG => c.atoms.length) ∘ inducedSub g) c = List.length c := by
      intro c hc
      rcases compAux_are_reach hc with ⟨n, hn, _, rfl⟩
      exact induced_atoms_length hg (reachFrom_nodup hg n) (reachFrom_subset_nodeIds hn)
    rw [List.map_congr_left hcongr]
    exact getComponents_length_sum hg

/-- Claim C5 counterexample: on the two-atom diagram whose single bond is
polymeric, `get_components` yields one component holding both nodes, but the
sum of Python `len(c)` over the components (which counts LOCAL atoms only)
is 0, not the 2 nodes of the full graph. -/
theorem c5_counterexample :
    ((get_components polyNaCl).map lenCD).sum = 0 ∧
    polyNaCl.atoms.length = 2 ∧
    getComponents polyNaCl = [[0, 1]] := by
  refine ⟨by rfl, rfl, by rfl⟩

/-- Claim C5 witness: the amended sum property evaluated on the Na-Cl
diagram. -/
theorem c5_witness :
    ((get_components naclCG).map (fun c => c.atoms.length)).sum = naclCG.atoms.length :=
  (c5_components_partition naclCG (by decide)).2.2.2

/-! ### Claim C10: `len` counts local atoms and is the building-unit sort key -/

theorem mem_insertBU {x z : CG} : ∀ {l : List CG}, z ∈ insertBU x l → z = x ∨ z ∈ l := by
  intro l
  induction l with
  | nil =>
    intro h
    exact Or.inl (by simpa [insertBU] using h)
  | cons y ys ih =>
    intro h
    unfold insertBU at h
    by_cases hc : buLen y < buLen x
    · rw [if_pos hc] at h
      rcases List.mem_cons.mp h with rfl | h2
      · exact Or.inl rfl
      · exact Or.inr h2
    · rw [if_neg hc] at h
      rcases List.mem_cons.mp h with rfl | h2
      · exact Or.inr (List.mem_cons_self _ _)
      · rcases ih h2 with h3 | h4
        · exact Or.inl h3
        · exact Or.inr (List.mem_cons_of_mem _ h4)

theorem sorted_insertBU {x : CG} : ∀ {l : List CG},
    List.Sorted (fun u v : CG => buLen v ≤ buLen u) l →
    List.Sorted (fun u v : CG => buLen v ≤ buLen u) (insertBU x l) := by
  intro l
  induction l with
  | nil =>
    intro _
    simp [insertBU]
  | cons y ys ih =>
    intro h
    rcases List.sorted_cons.mp h with ⟨hy, hys⟩
    unfold insertBU
    by_cases hc : buLen y < buLen x
    · rw [if_pos hc]
      apply List.sorted_cons.mpr
      refine ⟨?_, h⟩
      intro z hz
      rcases List.mem_cons.mp hz with rfl | h2
      · exact Nat.le_of_lt hc
      · exact Nat.le_trans (hy z h2) (Nat.le_of_lt hc)
    · rw [if_neg hc]
      apply List.sorted_cons.mpr
      refine ⟨?_, ih hys⟩
      intro z hz
      rcases mem_insertBU hz with rfl | h2
      · exact Nat.le_of_not_lt hc
      · exact hy z h2

theorem sorted_sortBUs : ∀ (l : List CG),
    List.Sorted (fun u v : CG => buLen v ≤ buLen u) (sortBUs l) := by
  intro l
  induction l with
  | nil => simp [sortBUs]
  | cons x xs ih => exact sorted_insertBU ih

/-- Claim C10: `len` of a diagram counts the atoms of its LOCAL graph (a
non-empty diagram all of whose atoms carry only polymeric bonds has length 0,
although its full graph is non-empty), `len` of a building unit counts the
atoms of its full graph (`BuildingUnitDiagram.local_graph` is the full
graph), and `get_pbus_from_diagram` returns the building units sorted by
descending `len`. -/
theorem c10_len_and_pbu_sort (g : CG) (allowed : List String) :
    lenCD g = (local_graph g).atoms.length ∧
    (∀ b : CG, buLen b = b.atoms.length) ∧
    List.Sorted (fun u v : CG => buLen v ≤ buLen u) (get_pbus_from_diagram g allowed) ∧
    (g.atoms ≠ [] → (∀ a ∈ g.atoms, ∃ e ∈ g.bonds, bondTouches e a.id = true) →
      (∀ e ∈ g.bonds, e.polymeric = true) → lenCD g = 0 ∧ 0 < g.atoms.length) := by
  refine ⟨rfl, fun b => rfl, sorted_sortBUs _, ?_⟩
  intro hne hinc hpoly
  have hnap : get_nodes_not_all_poly g = [] := by
    unfold get_nodes_not_all_poly
    apply List.filterMap_eq_nil_iff.mpr
    intro a ha
    have hall : (((g.bonds.filter (fun e => bondTouches e a.id)).map Bond.polymeric).all
        (fun x => x)) = true := by
      apply List.all_eq_true.mpr
      intro b hb
      rcases List.mem_map.mp hb with ⟨e, he, rfl⟩
      exact hpoly e (List.mem_filter.mp he).1
    have hlenpos : (g.bonds.filter (fun e => bondTouches e a.id)).length ≠ 0 := by
      rcases hinc a ha with ⟨e, he, ht⟩
      have : e ∈ g.bonds.filter (fun e => bondTouches e a.id) :=
        List.mem_filter.mpr ⟨he, ht⟩
      intro hc
      rw [List.length_eq_zero.mp hc] at this
      exact absurd this (by simp)
    simp only [hall, Bool.not_true, Bool.false_eq_true, if_false]
    rw [if_neg (by simpa using hlenpos)]
  constructor
  · unfold lenCD local_graph
    rw [hnap]
    have : (inducedSub g []).atoms = [] := by
      have : ∀ a ∈ g.atoms, ¬(([] : List Nat).contains a.id = true) := by
        intro a _ hc
        exact absurd (listContains_iff.mp hc) (by simp)
      exact List.filter_eq_nil_iff.mpr this
    rw [this]
    rfl
  · have hlen : g.atoms.length ≠ 0 := by
      intro hc
      exact hne (List.length_eq_zero.mp hc)
    omega

/-- Claim C10 witness: the two-atom all-polymeric diagram has Python length
0 while its full graph holds 2 atoms, and its building units come out sorted
by descending length. -/
theorem c10_witness :
    (lenCD polyNaCl = 0 ∧ 0 < polyNaCl.atoms.length) ∧
    List.Sorted (fun u v : CG => buLen v ≤ buLen u)
      (get_pbus_from_diagram polyNaCl allowed_centers) :=
  ⟨(c10_len_and_pbu_sort polyNaCl allowed_centers).2.2.2 (by decide) (by decide) (by decide),
   (c10_len_and_pbu_sort polyNaCl allowed_centers).2.2.1⟩
